import Mathlib

/-!
Verification of the executor-commitment pool
(`go/roothash/api/commitment/pool.go`).

The pool collects signed executor commitments for one round, performs
discrepancy detection among workers and discrepancy resolution among backup
workers, and emits a deterministic verdict.  The Go code is shallowly
embedded below: maps become association lists, machine integers become
`Int`/`Nat` (counts are bounded by the committee size, so no overflow is
reachable), fallible code returns `Option`/an explicit verdict type, and the
Go `panic` in `ProcessCommitments` becomes an explicit `Verdict.panicked`
value.  Types that live outside the translated file (the commitment value,
the committee scheduler, node and runtime descriptors) are modelled from the
specification and marked as such in their doc comments.
-/

/-- Role of an executor-committee member (`scheduler.RoleWorker` /
`scheduler.RoleBackupWorker`). -/
inductive Role where
  | worker
  | backupWorker
deriving DecidableEq, Repr

/-- Committee kind; the pool only distinguishes `KindComputeExecutor` from
everything else. -/
inductive CommitteeKind where
  | computeExecutor
  | other
deriving DecidableEq, Repr

/-- One committee member: a public key together with its role. -/
structure CommitteeNode where
  publicKey : Nat
  role : Role
deriving DecidableEq, Repr

/-- Modelled from the spec: the elected committee carries an ordered member
list, a kind, and the epoch it is valid for. -/
structure Committee where
  kind : CommitteeKind
  members : List CommitteeNode
  ValidFor : Nat
deriving DecidableEq, Repr

/-- Modelled from the spec: an executor commitment exposes its node id, a
failure flag (`IsIndicatingFailure`), a vote-key fingerprint (`ToVote`), the
side-effect messages and their header hash, the parent-block hash reference,
the outcome of the outer signature check and of `ValidateBasic`, and the
attestation key its RAK signature verifies under (a valid signature is
modelled as naming the key that verifies it). -/
structure ExecutorCommitment where
  nodeID : Nat
  failure : Bool
  vote : Nat
  messages : List Nat
  messagesHash : Nat
  parentHash : Nat
  sigOk : Bool
  basicOk : Bool
  rakKey : Nat
deriving DecidableEq, Repr

/-- Modelled from the spec: `IsIndicatingFailure` reads the failure flag. -/
def ExecutorCommitment.IsIndicatingFailure (c : ExecutorCommitment) : Bool :=
  c.failure

/-- Modelled from the spec: `ToVote` is the stable fingerprint over the
verdict-determining part of the header. -/
def ExecutorCommitment.ToVote (c : ExecutorCommitment) : Nat :=
  c.vote

/-- Modelled from the spec: `MostlyEqual` compares the consensus-material
fields (the failure flag and the verdict fingerprint), ignoring
proposer-only side-channel data such as messages. -/
def ExecutorCommitment.MostlyEqual (c other : ExecutorCommitment) : Bool :=
  c.failure == other.failure && c.vote == other.vote

/-- Modelled from the spec: the canonical hash over a message list
(`message.MessagesHash`); any fixed deterministic function serves the model. -/
def MessagesHash (msgs : List Nat) : Nat :=
  msgs.foldl (fun h m => h * 1000003 + m + 1) 7

/-- Modelled from the spec: a TEE capability exposes the attestation key. -/
structure TEECapability where
  rak : Nat
deriving DecidableEq, Repr

/-- Modelled from the spec: a node's registration for one runtime version,
possibly carrying a TEE capability. -/
structure NodeRuntimeInfo where
  id : Nat
  version : Nat
  tee : Option TEECapability
deriving DecidableEq, Repr

/-- Modelled from the spec: a registry node descriptor lists the runtime
versions the node is registered for. -/
structure NodeDescriptor where
  runtimes : List NodeRuntimeInfo
deriving DecidableEq, Repr

/-- Modelled from the spec: `Node.GetRuntime` resolves the registration for
a given runtime id and version. -/
def NodeDescriptor.GetRuntime (n : NodeDescriptor) (id version : Nat) :
    Option NodeRuntimeInfo :=
  n.runtimes.find? (fun r => r.id == id && r.version == version)

/-- Modelled from the spec: one deployment of a runtime. -/
structure VersionInfo where
  version : Nat
  validFrom : Nat
deriving DecidableEq, Repr

/-- Modelled from the spec: the executor parameters of a runtime. -/
structure ExecutorParameters where
  AllowedStragglers : Nat
  MaxMessages : Nat
deriving DecidableEq, Repr

/-- The sentinel TEE-hardware value meaning "no trusted execution required"
(`node.TEEHardwareInvalid`). -/
def teeHardwareInvalid : Nat := 0

/-- Modelled from the spec: the runtime descriptor fields the pool reads. -/
structure RuntimeDescriptor where
  ID : Nat
  TEEHardware : Nat
  Executor : ExecutorParameters
  Deployments : List VersionInfo
deriving DecidableEq, Repr

/-- Modelled from the spec: `Runtime.ActiveDeployment` picks the deployment
active at the given epoch (the last listed one whose `validFrom` has
passed). -/
def RuntimeDescriptor.ActiveDeployment (rt : RuntimeDescriptor) (epoch : Nat) :
    Option VersionInfo :=
  rt.Deployments.foldl (fun acc d => if d.validFrom ≤ epoch then some d else acc) none

/-- Modelled from the spec: `Committee.TransactionScheduler` deterministically
maps a round to exactly one worker member (the proposer); it fails when the
committee has no workers. -/
def Committee.TransactionScheduler (c : Committee) (round : Nat) :
    Option CommitteeNode :=
  let ws := c.members.filter (fun n => n.role == Role.worker)
  if h : ws.length = 0 then none
  else some (ws.get ⟨round % ws.length, Nat.mod_lt _ (Nat.pos_of_ne_zero h)⟩)

/-- The block header data the pool reads: the round and the encoded hash of
the parent block header. -/
structure Block where
  round : Nat
  encodedHash : Nat
deriving DecidableEq, Repr

/-- Errors of the pool (`Err*` constants of the commitment package);
`validatorErr` carries an arbitrary message-validator error propagated
verbatim, and `signatureInvalid` stands for the outer signature-check error
returned by `AddExecutorCommitment`. -/
inductive Err where
  | noRuntime
  | noCommittee
  | invalidCommitteeKind
  | rakSigInvalid
  | notInCommittee
  | alreadyCommitted
  | notBasedOnCorrectBlock
  | discrepancyDetected
  | stillWaiting
  | insufficientVotes
  | badExecutorCommitment
  | invalidMessages
  | timeoutNotCorrectRound
  | nodeIsScheduler
  | invalidRound
  | noProposerCommitment
  | badProposerCommitment
  | signatureInvalid
  | validatorErr (code : Nat)
deriving DecidableEq, Repr

/-- Result of `ProcessCommitments`/`TryFinalize`: success with the proposer
commitment, an error, or the Go panic on a non-executor committee kind. -/
inductive Verdict where
  | ok (c : ExecutorCommitment)
  | fail (e : Err)
  | panicked
deriving DecidableEq, Repr

/-- The timeout value that never expires (`TimeoutNever`). -/
def TimeoutNever : Int := 0

/-- Backup-worker round-timeout stretch factor numerator (15). -/
def backupWorkerTimeoutFactorNumerator : Int := 15

/-- Backup-worker round-timeout stretch factor denominator (10). -/
def backupWorkerTimeoutFactorDenominator : Int := 10

/-- The commitment pool state.  The Go map `ExecuteCommitments` becomes an
association list from node public key to commitment; lookups see the first
binding, and the admission path keeps keys unique. -/
structure Pool where
  Runtime : Option RuntimeDescriptor
  Committee : Option Committee
  Round : Nat
  ExecuteCommitments : List (Nat × ExecutorCommitment)
  Discrepancy : Bool
  NextTimeout : Int
deriving DecidableEq, Repr

/-- Association-list lookup used for the `ExecuteCommitments` map. -/
def ecLookup (l : List (Nat × ExecutorCommitment)) (k : Nat) :
    Option ExecutorCommitment :=
  match l with
  | [] => none
  | (k', c) :: rest => if k' == k then some c else ecLookup rest k

/-- Membership test `Pool.isMember`: the node appears in the committee member
list (the Go code caches this set; the semantics is plain membership). -/
def Pool.isMember (p : Pool) (id : Nat) : Bool :=
  match p.Committee with
  | none => false
  | some c => c.members.any (fun m => m.publicKey == id)

/-- Worker test `Pool.isWorker`: the node appears in the member list with
role `Worker`. -/
def Pool.isWorker (p : Pool) (id : Nat) : Bool :=
  match p.Committee with
  | none => false
  | some c => c.members.any (fun m => m.role == Role.worker && m.publicKey == id)

/-- Scheduler test `Pool.isScheduler`: the node is the transaction scheduler
of the pool's round. -/
def Pool.isScheduler (p : Pool) (id : Nat) : Bool :=
  match p.Committee with
  | none => false
  | some c =>
    match c.TransactionScheduler p.Round with
    | none => false
    | some s => s.publicKey == id

/-- `ResetCommitments`: reset the commitments, clear the discrepancy flag and
the next timeout height. -/
def Pool.ResetCommitments (p : Pool) (round : Nat) : Pool :=
  { p with
    Round := round
    ExecuteCommitments := []
    Discrepancy := false
    NextTimeout := TimeoutNever }

/-- One entry of the `votes` map of `ProcessCommitments`: an example
commitment for the vote key and the running tally (the Go zero value has a
nil commitment and tally 0). -/
structure Vote where
  commit : Option ExecutorCommitment
  tally : Int
deriving DecidableEq, Repr

/-- Record one non-failure commitment in the `votes` map: bump the tally of
its vote key, or append a fresh entry with tally 1. -/
def addVote (votes : List (Nat × Vote)) (c : ExecutorCommitment) :
    List (Nat × Vote) :=
  match votes with
  | [] => [(c.ToVote, { commit := some c, tally := 1 })]
  | (k, v) :: rest =>
    if k = c.ToVote then (k, { commit := v.commit, tally := v.tally + 1 }) :: rest
    else (k, v) :: addVote rest c

/-- Accumulator of the member scan of `ProcessCommitments`. -/
structure ScanState where
  total : Int
  commits : Int
  failures : Int
  votes : List (Nat × Vote)
deriving DecidableEq, Repr

/-- The member scan of `ProcessCommitments`: walk the committee members in
declared order, count active-role members, their commitments and failures,
and build the vote map; in detection mode, exit (`none`) as soon as two
distinct non-failure vote keys have appeared. -/
def gather (disc : Bool) (lk : Nat → Option ExecutorCommitment) :
    List CommitteeNode → ScanState → Option ScanState
  | [], s => some s
  | n :: rest, s =>
    if (disc = false ∧ n.role ≠ Role.worker) ∨
        (disc = true ∧ n.role ≠ Role.backupWorker) then
      gather disc lk rest s
    else
      let s1 := { s with total := s.total + 1 }
      match lk n.publicKey with
      | none => gather disc lk rest s1
      | some commit =>
        let s2 := { s1 with commits := s1.commits + 1 }
        if commit.IsIndicatingFailure then
          gather disc lk rest { s2 with failures := s2.failures + 1 }
        else
          let votes1 := addVote s2.votes commit
          if disc = false ∧ 1 < votes1.length then none
          else gather disc lk rest { s2 with votes := votes1 }

/-- Pick the vote with the highest tally, scanning entries in the given
order and keeping the first strict maximum (the Go loop over the `votes`
map with a zero-valued initial `topVote`). -/
def selectTop (votes : List (Nat × Vote)) : Vote :=
  votes.foldl (fun acc kv => if kv.2.tally > acc.tally then kv.2 else acc)
    { commit := none, tally := 0 }

/-- The detection-mode branch of `ProcessCommitments` (`case false` of the
`switch p.Discrepancy`). -/
def detectionBranch (p : Pool) (s : ScanState)
    (proposerCommit : Option ExecutorCommitment) (didTimeout : Bool) :
    Pool × Verdict :=
  match p.Runtime with
  | none => (p, .panicked)
  | some rt =>
    let allowedStragglers : Int := rt.Executor.AllowedStragglers
    if s.failures > allowedStragglers then
      ({ p with Discrepancy := true }, .fail .discrepancyDetected)
    else
      let required := if didTimeout then s.total - allowedStragglers else s.total
      let commits := if didTimeout then s.commits - s.failures else s.commits
      match proposerCommit with
      | none => (p, .fail .stillWaiting)
      | some pc =>
        if commits < required then (p, .fail .stillWaiting)
        else (p, .ok pc)

/-- The resolution-mode branch of `ProcessCommitments` (`case true` of the
`switch p.Discrepancy`), generalized over the traversal order of the votes
map. -/
def resolutionBranch (voteOrder : List (Nat × Vote) → List (Nat × Vote))
    (p : Pool) (s : ScanState)
    (proposerCommit : Option ExecutorCommitment) (didTimeout : Bool) :
    Pool × Verdict :=
  let required := s.total.tdiv 2 + 1
  let topVote := selectTop (voteOrder s.votes)
  let remaining := s.total - s.commits
  if topVote.tally + remaining < required then (p, .fail .insufficientVotes)
  else
    match proposerCommit with
    | none =>
      (p, .fail (if didTimeout then .insufficientVotes else .stillWaiting))
    | some pc =>
      if topVote.tally < required then
        (p, .fail (if didTimeout then .insufficientVotes else .stillWaiting))
      else
        match topVote.commit with
        | none => (p, .panicked)
        | some tc =>
          if pc.MostlyEqual tc then (p, .ok pc)
          else (p, .fail .badProposerCommitment)

/-- `ProcessCommitments`, generalized over the traversal order of the `votes`
map: Go iterates a hash map in unspecified order when selecting the top
vote, so the selection sees `voteOrder` applied to the gathered entries.
`Pool.ProcessCommitments` below instantiates `voteOrder` with the identity;
determinism demands that any permutation yields the same verdict. -/
def Pool.ProcessCommitmentsWith
    (voteOrder : List (Nat × Vote) → List (Nat × Vote))
    (p : Pool) (didTimeout : Bool) : Pool × Verdict :=
  match p.Committee with
  | none => (p, .fail .noCommittee)
  | some c =>
    if c.kind ≠ CommitteeKind.computeExecutor then (p, .panicked)
    else
      match gather p.Discrepancy (ecLookup p.ExecuteCommitments) c.members
          { total := 0, commits := 0, failures := 0, votes := [] } with
      | none => ({ p with Discrepancy := true }, .fail .discrepancyDetected)
      | some s =>
        match c.TransactionScheduler p.Round with
        | none => (p, .fail .noCommittee)
        | some proposer =>
          let proposerCommit := ecLookup p.ExecuteCommitments proposer.publicKey
          if proposerCommit = none ∧ didTimeout then
            (p, .fail .noProposerCommitment)
          else
            match p.Discrepancy with
            | false => detectionBranch p s proposerCommit didTimeout
            | true => resolutionBranch voteOrder p s proposerCommit didTimeout

/-- `ProcessCommitments`: one round of commitment checks — discrepancy
detection or resolution over the pool contents. -/
def Pool.ProcessCommitments (p : Pool) (didTimeout : Bool) : Pool × Verdict :=
  Pool.ProcessCommitmentsWith id p didTimeout

/-- `TryFinalize`: wrap `ProcessCommitments` with the timeout re-arming
policy and the detection-to-resolution transition on an authoritative
timeout.  The deferred assignment in Go runs on every exit, the panic
included. -/
def Pool.TryFinalize (p : Pool) (height roundTimeout : Int)
    (didTimeout isTimeoutAuthoritative : Bool) : Pool × Verdict :=
  let r := p.ProcessCommitments didTimeout
  let p1 := r.1
  match r.2 with
  | .ok c => ({ p1 with NextTimeout := TimeoutNever }, .ok c)
  | .fail .stillWaiting =>
    if didTimeout then
      if isTimeoutAuthoritative then
        ({ p1 with
            Discrepancy := true
            NextTimeout := height +
              (backupWorkerTimeoutFactorNumerator * roundTimeout).tdiv
                backupWorkerTimeoutFactorDenominator },
          .fail .discrepancyDetected)
      else ({ p1 with NextTimeout := TimeoutNever }, .fail .discrepancyDetected)
    else ({ p1 with NextTimeout := height + roundTimeout }, .fail .stillWaiting)
  | .fail .discrepancyDetected =>
    ({ p1 with NextTimeout := height + roundTimeout }, .fail .discrepancyDetected)
  | .fail e => ({ p1 with NextTimeout := TimeoutNever }, .fail e)
  | .panicked => ({ p1 with NextTimeout := TimeoutNever }, .panicked)

/-- `IsTimeout`: the time is up for `TryFinalize` to be called. -/
def Pool.IsTimeout (p : Pool) (height : Int) : Bool :=
  p.NextTimeout ≠ TimeoutNever && height ≥ p.NextTimeout

/-- `CheckProposerTimeout`: verify an executor timeout request.  Returns
`none` on success and the rejecting error otherwise. -/
def Pool.CheckProposerTimeout (p : Pool) (blk : Block) (id : Nat)
    (round : Nat) : Option Err :=
  match p.Committee with
  | none => some .noCommittee
  | some c =>
    if c.kind ≠ CommitteeKind.computeExecutor then some .invalidCommitteeKind
    else if round ≠ blk.round then some .timeoutNotCorrectRound
    else if p.ExecuteCommitments.length ≠ 0 then some .alreadyCommitted
    else if ¬ p.isWorker id then some .notInCommittee
    else if p.isScheduler id then some .nodeIsScheduler
    else none

/-- The RAK-attestation step of `addVerifiedExecutorCommitment` for
non-failure commitments: resolve the node, the active deployment and the
node's TEE capability, then verify the attestation signature. -/
def teeAttestationCheck (rt : RuntimeDescriptor) (c : Committee)
    (nl : Nat → Option NodeDescriptor) (commit : ExecutorCommitment) :
    Option Err :=
  if rt.TEEHardware = teeHardwareInvalid then none
  else
    match nl commit.nodeID with
    | none => some .notInCommittee
    | some n =>
      match rt.ActiveDeployment c.ValidFor with
      | none => some .noRuntime
      | some ad =>
        match n.GetRuntime rt.ID ad.version with
        | none => some .notInCommittee
        | some nodeRt =>
          match nodeRt.tee with
          | none => some .rakSigInvalid
          | some cap =>
            if commit.rakKey = cap.rak then none else some .rakSigInvalid

/-- The emitted-messages step of `addVerifiedExecutorCommitment` for
non-failure commitments: the scheduler may carry messages subject to the
count bound, the hash check and the external validator; every other node
must carry none. -/
def messagesCheck (rt : RuntimeDescriptor) (isSched : Bool)
    (msgValidator : Option (List Nat → Option Nat))
    (commit : ExecutorCommitment) : Option Err :=
  match isSched with
  | true =>
    if commit.messages.length > rt.Executor.MaxMessages then
      some .invalidMessages
    else if MessagesHash commit.messages ≠ commit.messagesHash then
      some .invalidMessages
    else
      match msgValidator with
      | some v =>
        if commit.messages.length > 0 then
          match v commit.messages with
          | some e => some (.validatorErr e)
          | none => none
        else none
      | none => none
  | false =>
    if commit.messages.length > 0 then some .invalidMessages else none

/-- `addVerifiedExecutorCommitment`: the admission pipeline after the outer
signature check.  Returns the updated pool and `none` on success, or the
unchanged pool and the rejecting error. -/
def Pool.addVerifiedExecutorCommitment (p : Pool) (blk : Block)
    (nl : Nat → Option NodeDescriptor)
    (msgValidator : Option (List Nat → Option Nat))
    (commit : ExecutorCommitment) : Pool × Option Err :=
  match p.Committee with
  | none => (p, some .noCommittee)
  | some c =>
    if c.kind ≠ CommitteeKind.computeExecutor then (p, some .invalidCommitteeKind)
    else if ¬ p.isMember commit.nodeID then (p, some .notInCommittee)
    else if (ecLookup p.ExecuteCommitments commit.nodeID).isSome then
      (p, some .alreadyCommitted)
    else
      match p.Runtime with
      | none => (p, some .noRuntime)
      | some rt =>
        if p.Round ≠ blk.round then (p, some .invalidRound)
        else if commit.parentHash ≠ blk.encodedHash then
          (p, some .notBasedOnCorrectBlock)
        else if ¬ commit.basicOk then (p, some .badExecutorCommitment)
        else
          let check : Option Err :=
            match commit.IsIndicatingFailure with
            | true => none
            | false =>
              match teeAttestationCheck rt c nl commit with
              | some e => some e
              | none =>
                messagesCheck rt (p.isScheduler commit.nodeID) msgValidator commit
          match check with
          | some e => (p, some e)
          | none =>
            ({ p with ExecuteCommitments :=
                p.ExecuteCommitments ++ [(commit.nodeID, commit)] }, none)

/-- `AddExecutorCommitment`: verify the outer commitment signature and run
the admission pipeline. -/
def Pool.AddExecutorCommitment (p : Pool) (blk : Block)
    (nl : Nat → Option NodeDescriptor) (commit : ExecutorCommitment)
    (msgValidator : Option (List Nat → Option Nat)) : Pool × Option Err :=
  match p.Runtime with
  | none => (p, some .noRuntime)
  | some _ =>
    if ¬ commit.sigOk then (p, some .signatureInvalid)
    else p.addVerifiedExecutorCommitment blk nl msgValidator commit

/-! ## Specification-level views of the member scan -/

/-- The role counted by the scan: workers in detection mode, backup workers
in resolution mode. -/
def activeRole (disc : Bool) : Role :=
  if disc then Role.backupWorker else Role.worker

/-- The committee members of the active role, in declared order. -/
def activeMembers (disc : Bool) (ms : List CommitteeNode) : List CommitteeNode :=
  ms.filter (fun n => n.role == activeRole disc)

/-- The commitments submitted by active-role members, in member order. -/
def activeCommits (disc : Bool) (lk : Nat → Option ExecutorCommitment)
    (ms : List CommitteeNode) : List ExecutorCommitment :=
  (activeMembers disc ms).filterMap (fun n => lk n.publicKey)

/-- The non-failure commitments among the active-role submissions. -/
def nonFailureCommits (disc : Bool) (lk : Nat → Option ExecutorCommitment)
    (ms : List CommitteeNode) : List ExecutorCommitment :=
  (activeCommits disc lk ms).filter (fun c => !c.IsIndicatingFailure)

/-- The number of failure-indicating active-role submissions. -/
def failureCount (disc : Bool) (lk : Nat → Option ExecutorCommitment)
    (ms : List CommitteeNode) : Nat :=
  (activeCommits disc lk ms).countP (fun c => c.IsIndicatingFailure)

/-- Fold `addVote` over a list of non-failure commitments. -/
def buildVotes : List (Nat × Vote) → List ExecutorCommitment → List (Nat × Vote)
  | vs, [] => vs
  | vs, c :: cs => buildVotes (addVote vs c) cs

/-- The scan outcome, stated compositionally: early discrepancy exit exactly
when detection mode accumulates more than one distinct vote key, and
otherwise the counts over the active members. -/
def scanSpec (disc : Bool) (lk : Nat → Option ExecutorCommitment)
    (ms : List CommitteeNode) (s : ScanState) : Option ScanState :=
  if disc = false ∧ 1 < (buildVotes s.votes (nonFailureCommits disc lk ms)).length then
    none
  else
    some
      { total := s.total + ((activeMembers disc ms).length : Int)
        commits := s.commits + ((activeCommits disc lk ms).length : Int)
        failures := s.failures + ((failureCount disc lk ms) : Int)
        votes := buildVotes s.votes (nonFailureCommits disc lk ms) }

theorem addVote_length_le (vs : List (Nat × Vote)) (c : ExecutorCommitment) :
    vs.length ≤ (addVote vs c).length := by
  induction vs with
  | nil => simp [addVote]
  | cons kv rest ih =>
    obtain ⟨k, v⟩ := kv
    by_cases hk : k = c.ToVote
    · simp [addVote, hk]
    · simpa [addVote, hk] using ih

theorem buildVotes_length_le (cs : List ExecutorCommitment) :
    ∀ vs : List (Nat × Vote), vs.length ≤ (buildVotes vs cs).length := by
  induction cs with
  | nil => intro vs; simp [buildVotes]
  | cons c cs ih =>
    intro vs
    exact le_trans (addVote_length_le vs c) (ih (addVote vs c))


theorem buildVotes_cons (vs : List (Nat × Vote)) (c : ExecutorCommitment)
    (cs : List ExecutorCommitment) :
    buildVotes vs (c :: cs) = buildVotes (addVote vs c) cs := rfl

theorem gather_cons_skip (disc : Bool) (lk : Nat → Option ExecutorCommitment)
    (n : CommitteeNode) (ms : List CommitteeNode) (s : ScanState)
    (h : (disc = false ∧ n.role ≠ Role.worker) ∨
      (disc = true ∧ n.role ≠ Role.backupWorker)) :
    gather disc lk (n :: ms) s = gather disc lk ms s := by
  simp only [gather, if_pos h]

theorem gather_cons_nocommit (disc : Bool) (lk : Nat → Option ExecutorCommitment)
    (n : CommitteeNode) (ms : List CommitteeNode) (s : ScanState)
    (h : ¬ ((disc = false ∧ n.role ≠ Role.worker) ∨
      (disc = true ∧ n.role ≠ Role.backupWorker)))
    (hlk : lk n.publicKey = none) :
    gather disc lk (n :: ms) s = gather disc lk ms { s with total := s.total + 1 } := by
  simp only [gather, if_neg h, hlk]

theorem gather_cons_failure (disc : Bool) (lk : Nat → Option ExecutorCommitment)
    (n : CommitteeNode) (ms : List CommitteeNode) (s : ScanState)
    (c : ExecutorCommitment)
    (h : ¬ ((disc = false ∧ n.role ≠ Role.worker) ∨
      (disc = true ∧ n.role ≠ Role.backupWorker)))
    (hlk : lk n.publicKey = some c) (hf : c.IsIndicatingFailure = true) :
    gather disc lk (n :: ms) s = gather disc lk ms
      { s with
        total := s.total + 1
        commits := s.commits + 1
        failures := s.failures + 1 } := by
  simp only [gather, if_neg h, hlk, hf, if_pos]

theorem gather_cons_vote_exit (disc : Bool) (lk : Nat → Option ExecutorCommitment)
    (n : CommitteeNode) (ms : List CommitteeNode) (s : ScanState)
    (c : ExecutorCommitment)
    (h : ¬ ((disc = false ∧ n.role ≠ Role.worker) ∨
      (disc = true ∧ n.role ≠ Role.backupWorker)))
    (hlk : lk n.publicKey = some c) (hf : c.IsIndicatingFailure = false)
    (hcond : disc = false ∧ 1 < (addVote s.votes c).length) :
    gather disc lk (n :: ms) s = none := by
  simp only [gather, if_neg h, hlk, hf, Bool.false_eq_true, if_pos hcond]
  simp

theorem gather_cons_vote (disc : Bool) (lk : Nat → Option ExecutorCommitment)
    (n : CommitteeNode) (ms : List CommitteeNode) (s : ScanState)
    (c : ExecutorCommitment)
    (h : ¬ ((disc = false ∧ n.role ≠ Role.worker) ∨
      (disc = true ∧ n.role ≠ Role.backupWorker)))
    (hlk : lk n.publicKey = some c) (hf : c.IsIndicatingFailure = false)
    (hcond : ¬ (disc = false ∧ 1 < (addVote s.votes c).length)) :
    gather disc lk (n :: ms) s = gather disc lk ms
      { s with
        total := s.total + 1
        commits := s.commits + 1
        votes := addVote s.votes c } := by
  simp only [gather, if_neg h, hlk, hf, Bool.false_eq_true, if_neg hcond]
  simp

theorem activeMembers_cons_skip (disc : Bool) (n : CommitteeNode)
    (ms : List CommitteeNode) (hact : (n.role == activeRole disc) = false) :
    activeMembers disc (n :: ms) = activeMembers disc ms := by
  simp [activeMembers, List.filter_cons, hact]

theorem activeMembers_cons_active (disc : Bool) (n : CommitteeNode)
    (ms : List CommitteeNode) (hact : (n.role == activeRole disc) = true) :
    activeMembers disc (n :: ms) = n :: activeMembers disc ms := by
  simp [activeMembers, List.filter_cons, hact]

theorem gather_eq_scanSpec (disc : Bool) (lk : Nat → Option ExecutorCommitment)
    (ms : List CommitteeNode) :
    ∀ s : ScanState, (disc = false → s.votes.length ≤ 1) →
      gather disc lk ms s = scanSpec disc lk ms s := by
  induction ms with
  | nil =>
    intro s hs
    have hcond : ¬ (disc = false ∧
        1 < (buildVotes s.votes (nonFailureCommits disc lk [])).length) := by
      rintro ⟨hd, hlen⟩
      have h1 := hs hd
      simp only [nonFailureCommits, activeCommits, activeMembers,
        List.filter_nil, List.filterMap_nil, buildVotes] at hlen
      omega
    simp [gather, scanSpec, if_neg hcond, nonFailureCommits, activeCommits,
      activeMembers, failureCount, buildVotes]
    exact hs
  | cons n ms ih =>
    intro s hs
    by_cases hskip : (disc = false ∧ n.role ≠ Role.worker) ∨
        (disc = true ∧ n.role ≠ Role.backupWorker)
    · have hact : (n.role == activeRole disc) = false := by
        cases disc <;> simp_all [activeRole]
      have hms := activeMembers_cons_skip disc n ms hact
      rw [gather_cons_skip _ _ _ _ _ hskip, ih s hs]
      simp only [scanSpec, nonFailureCommits, activeCommits, hms, failureCount]
    · have hact : (n.role == activeRole disc) = true := by
        cases disc <;> cases hrole : n.role <;> simp_all [activeRole]
      have hms := activeMembers_cons_active disc n ms hact
      cases hlk : lk n.publicKey with
      | none =>
        rw [gather_cons_nocommit disc lk n ms s hskip hlk,
          ih { s with total := s.total + 1 } hs]
        have hac : activeCommits disc lk (n :: ms) = activeCommits disc lk ms := by
          simp [activeCommits, hms, List.filterMap_cons, hlk]
        simp only [scanSpec, nonFailureCommits, failureCount, hac, hms,
          List.length_cons]
        split
        · rfl
        · simp only [Option.some.injEq, ScanState.mk.injEq]
          repeat' apply And.intro
          all_goals first | trivial | (push_cast; omega)
      | some c =>
        have hac : activeCommits disc lk (n :: ms) = c :: activeCommits disc lk ms := by
          simp [activeCommits, hms, List.filterMap_cons, hlk]
        cases hf : c.IsIndicatingFailure with
        | true =>
          rw [gather_cons_failure disc lk n ms s c hskip hlk hf,
            ih { s with
              total := s.total + 1
              commits := s.commits + 1
              failures := s.failures + 1 } hs]
          have hnf : nonFailureCommits disc lk (n :: ms) =
              nonFailureCommits disc lk ms := by
            simp [nonFailureCommits, hac, List.filter_cons, hf]
          have hfc : failureCount disc lk (n :: ms) = failureCount disc lk ms + 1 := by
            simp [failureCount, hac, List.countP_cons, hf]
          simp only [scanSpec, hnf, hfc, hac, hms, List.length_cons]
          split
          · rfl
          · simp only [Option.some.injEq, ScanState.mk.injEq]
            repeat' apply And.intro
            all_goals first | trivial | (push_cast; omega)
        | false =>
          have hnf : nonFailureCommits disc lk (n :: ms) =
              c :: nonFailureCommits disc lk ms := by
            simp [nonFailureCommits, hac, List.filter_cons, hf]
          have hfc : failureCount disc lk (n :: ms) = failureCount disc lk ms := by
            simp [failureCount, hac, List.countP_cons, hf]
          by_cases hcond : disc = false ∧ 1 < (addVote s.votes c).length
          · rw [gather_cons_vote_exit disc lk n ms s c hskip hlk hf hcond]
            have hlen : 1 < (buildVotes (addVote s.votes c)
                (nonFailureCommits disc lk ms)).length :=
              lt_of_lt_of_le hcond.2 (buildVotes_length_le _ _)
            rw [scanSpec, if_pos ⟨hcond.1, by rw [hnf, buildVotes_cons]; exact hlen⟩]
          · have hs' : disc = false → (addVote s.votes c).length ≤ 1 := by
              intro hd
              by_contra hgt
              exact hcond ⟨hd, by omega⟩
            rw [gather_cons_vote disc lk n ms s c hskip hlk hf hcond,
              ih { s with
                total := s.total + 1
                commits := s.commits + 1
                votes := addVote s.votes c } hs']
            simp only [scanSpec, hnf, buildVotes_cons, hfc, hac, hms,
              List.length_cons]
            split
            · rfl
            · simp only [Option.some.injEq, ScanState.mk.injEq]
              repeat' apply And.intro
              all_goals first | trivial | (push_cast; omega)

/-! ## Reduction of `ProcessCommitments` to its mode branches -/

theorem processCommitmentsWith_eq_branch
    (vo : List (Nat × Vote) → List (Nat × Vote)) (p : Pool) (dt : Bool)
    (c : Committee) (s : ScanState) (prop : CommitteeNode)
    (hc : p.Committee = some c) (hk : c.kind = CommitteeKind.computeExecutor)
    (hscan : scanSpec p.Discrepancy (ecLookup p.ExecuteCommitments) c.members
      { total := 0, commits := 0, failures := 0, votes := [] } = some s)
    (hprop : c.TransactionScheduler p.Round = some prop)
    (hpc : ¬ (ecLookup p.ExecuteCommitments prop.publicKey = none ∧ dt = true)) :
    Pool.ProcessCommitmentsWith vo p dt =
      match p.Discrepancy with
      | false =>
        detectionBranch p s (ecLookup p.ExecuteCommitments prop.publicKey) dt
      | true =>
        resolutionBranch vo p s (ecLookup p.ExecuteCommitments prop.publicKey) dt := by
  unfold Pool.ProcessCommitmentsWith
  rw [hc]
  simp only [hk, ne_eq, not_true_eq_false, if_false]
  rw [gather_eq_scanSpec p.Discrepancy (ecLookup p.ExecuteCommitments) c.members
    { total := 0, commits := 0, failures := 0, votes := [] } (by intro _; simp)]
  rw [hscan, hprop]
  simp only [if_neg hpc]

theorem addVote_single_key (vs : List (Nat × Vote)) (c : ExecutorCommitment)
    (hlen : vs.length ≤ 1) (hkeys : ∀ e ∈ vs, e.1 = c.ToVote) :
    (addVote vs c).length ≤ 1 ∧ ∀ e ∈ addVote vs c, e.1 = c.ToVote := by
  match vs, hlen with
  | [], _ => simp [addVote]
  | [(k, v)], _ =>
    have hk : k = c.ToVote := hkeys (k, v) (by simp)
    simp [addVote, hk]

theorem buildVotes_single_key (k : Nat) (cs : List ExecutorCommitment)
    (h : ∀ a ∈ cs, a.ToVote = k) :
    ∀ vs : List (Nat × Vote), vs.length ≤ 1 → (∀ e ∈ vs, e.1 = k) →
      (buildVotes vs cs).length ≤ 1 := by
  induction cs with
  | nil => intro vs hlen _; simpa [buildVotes] using hlen
  | cons c cs ih =>
    intro vs hlen hkeys
    have hck : c.ToVote = k := h c (by simp)
    have step := addVote_single_key vs c hlen (by simpa [hck] using hkeys)
    rw [buildVotes_cons]
    exact ih (fun a ha => h a (by simp [ha])) (addVote vs c) step.1
      (by simpa [hck] using step.2)

/-- The scan succeeds (no early-discrepancy exit) whenever the non-failure
active commitments all share one vote key; its result carries the counts
over the active members. -/
theorem scanSpec_of_single_key (disc : Bool)
    (lk : Nat → Option ExecutorCommitment) (ms : List CommitteeNode)
    (hnosplit : ∀ a ∈ nonFailureCommits disc lk ms,
      ∀ b ∈ nonFailureCommits disc lk ms, a.ToVote = b.ToVote) :
    scanSpec disc lk ms { total := 0, commits := 0, failures := 0, votes := [] } =
      some
        { total := ((activeMembers disc ms).length : Int)
          commits := ((activeCommits disc lk ms).length : Int)
          failures := ((failureCount disc lk ms) : Int)
          votes := buildVotes [] (nonFailureCommits disc lk ms) } := by
  have hlen : (buildVotes [] (nonFailureCommits disc lk ms)).length ≤ 1 := by
    cases hnf : nonFailureCommits disc lk ms with
    | nil => simp [buildVotes]
    | cons c0 rest =>
      refine buildVotes_single_key c0.ToVote _ ?_ [] (by simp) (by simp)
      intro a ha
      exact hnosplit a (by rw [hnf]; exact ha) c0 (by rw [hnf]; simp)
  rw [scanSpec, if_neg ?hneg]
  case hneg =>
    rintro ⟨_, hgt⟩
    have hgt2 : 1 < (buildVotes [] (nonFailureCommits disc lk ms)).length := hgt
    omega
  simp

/-! ## Concrete fixtures shared by witnesses and counterexamples -/

/-- Example committee: three workers (1, 2, 3) and two backup workers
(4, 5); round 0 makes node 1 the proposer. -/
def exCommittee : Committee :=
  { kind := CommitteeKind.computeExecutor
    members := [⟨1, Role.worker⟩, ⟨2, Role.worker⟩, ⟨3, Role.worker⟩,
      ⟨4, Role.backupWorker⟩, ⟨5, Role.backupWorker⟩]
    ValidFor := 0 }

/-- Example runtime: no TEE requirement, one allowed straggler, at most four
messages. -/
def exRuntime : RuntimeDescriptor :=
  { ID := 100, TEEHardware := 0, Executor := ⟨1, 4⟩, Deployments := [] }

/-- A non-failure commitment by `pk` voting `v`. -/
def exCommit (pk v : Nat) : ExecutorCommitment :=
  { nodeID := pk, failure := false, vote := v, messages := []
    messagesHash := MessagesHash [], parentHash := 55, sigOk := true
    basicOk := true, rakKey := 0 }

/-- A failure-indicating commitment by `pk`. -/
def exFailCommit (pk : Nat) : ExecutorCommitment :=
  { nodeID := pk, failure := true, vote := 99, messages := []
    messagesHash := MessagesHash [], parentHash := 55, sigOk := true
    basicOk := true, rakKey := 0 }

/-- Base example pool for round 0 with no commitments. -/
def exPool : Pool :=
  { Runtime := some exRuntime, Committee := some exCommittee, Round := 0
    ExecuteCommitments := [], Discrepancy := false, NextTimeout := 0 }

/-! ## Claim theorems -/

/-- Number of members of the active role (spec-level view of the scan's
`total`): workers when `disc = false`, backup workers when `disc = true`. -/
def roleTotal (disc : Bool) (c : Committee) : Int :=
  ((activeMembers disc c.members).length : Int)

/-- Number of active-role members that have submitted (spec-level view of
the scan's `commits`). -/
def roleCommits (disc : Bool) (p : Pool) (c : Committee) : Int :=
  ((activeCommits disc (ecLookup p.ExecuteCommitments) c.members).length : Int)

/-- Number of failure-indicating active-role submissions (spec-level view of
the scan's `failures`). -/
def roleFailures (disc : Bool) (p : Pool) (c : Committee) : Int :=
  ((failureCount disc (ecLookup p.ExecuteCommitments) c.members) : Int)

/-- Claim C2: in detection mode, when the worker commitments do not split
into two distinct non-failure vote keys and the proposer has committed or
the timer has not fired, `ProcessCommitments` fail-fasts to discrepancy when
`failures > AllowedStragglers` (for either `didTimeout`), and otherwise —
with `required = total` before the timeout and `required = total −
AllowedStragglers`, `commits` reduced by `failures`, after it — returns
`ErrStillWaiting` exactly when `commits < required` or the proposer has not
committed, and otherwise succeeds with the proposer's commitment. -/
theorem c2_detection_mode (p : Pool) (dt : Bool) (c : Committee)
    (rt : RuntimeDescriptor) (prop : CommitteeNode)
    (hdisc : p.Discrepancy = false)
    (hc : p.Committee = some c)
    (hk : c.kind = CommitteeKind.computeExecutor)
    (hrt : p.Runtime = some rt)
    (hprop : c.TransactionScheduler p.Round = some prop)
    (hnosplit : ∀ a ∈ nonFailureCommits false (ecLookup p.ExecuteCommitments) c.members,
      ∀ b ∈ nonFailureCommits false (ecLookup p.ExecuteCommitments) c.members,
        a.ToVote = b.ToVote)
    (hpa : (ecLookup p.ExecuteCommitments prop.publicKey).isSome ∨ dt = false) :
    (roleFailures false p c > (rt.Executor.AllowedStragglers : Int) →
      p.ProcessCommitments dt =
        ({ p with Discrepancy := true }, .fail .discrepancyDetected)) ∧
    (roleFailures false p c ≤ (rt.Executor.AllowedStragglers : Int) →
      (((if dt then roleCommits false p c - roleFailures false p c
          else roleCommits false p c) <
         (if dt then roleTotal false c - (rt.Executor.AllowedStragglers : Int)
          else roleTotal false c) ∨
        ecLookup p.ExecuteCommitments prop.publicKey = none →
        p.ProcessCommitments dt = (p, .fail .stillWaiting)) ∧
      (∀ pc, ecLookup p.ExecuteCommitments prop.publicKey = some pc →
        ¬ ((if dt then roleCommits false p c - roleFailures false p c
            else roleCommits false p c) <
           (if dt then roleTotal false c - (rt.Executor.AllowedStragglers : Int)
            else roleTotal false c)) →
        p.ProcessCommitments dt = (p, .ok pc)))) := by
  have hscan := scanSpec_of_single_key false (ecLookup p.ExecuteCommitments)
    c.members hnosplit
  have hpcne : ¬ (ecLookup p.ExecuteCommitments prop.publicKey = none ∧
      dt = true) := by
    rintro ⟨hnone, hdt⟩
    rcases hpa with h | h
    · rw [hnone] at h; simp at h
    · rw [h] at hdt; cases hdt
  have heq := processCommitmentsWith_eq_branch id p dt c _ prop hc hk
    (by rw [hdisc]; exact hscan) hprop hpcne
  rw [hdisc] at heq
  have hpc : p.ProcessCommitments dt = detectionBranch p
      { total := roleTotal false c
        commits := roleCommits false p c
        failures := roleFailures false p c
        votes := buildVotes []
          (nonFailureCommits false (ecLookup p.ExecuteCommitments) c.members) }
      (ecLookup p.ExecuteCommitments prop.publicKey) dt := heq
  refine ⟨?_, ?_⟩
  · intro hgt
    rw [hpc]
    simp only [detectionBranch, hrt]
    rw [if_pos (by simpa using hgt)]
  · intro hle
    refine ⟨?_, ?_⟩
    · intro hcase
      rw [hpc]
      simp only [detectionBranch, hrt]
      rw [if_neg (by simpa using not_lt.2 hle)]
      rcases hcase with hlt | hnone
      · cases hlook : ecLookup p.ExecuteCommitments prop.publicKey with
        | none => simp
        | some pc =>
          simp only []
          rw [if_pos (by simpa using hlt)]
      · rw [hnone]
    · intro pc hsome hnotlt
      rw [hpc]
      simp only [detectionBranch, hrt, hsome]
      rw [if_neg (by simpa using not_lt.2 hle), if_neg (by simpa using hnotlt)]

/-! ## Structure of the vote map -/

/-- Tally of one vote key, stated over the raw commitment list: the number
of non-failure commitments fingerprinting to `k`. -/
def voteTally (cs : List ExecutorCommitment) (k : Nat) : Int :=
  ((cs.countP (fun c => c.ToVote == k)) : Int)

/-- The highest tally over all vote keys occurring in `cs` (0 when none). -/
def topVoteTally (cs : List ExecutorCommitment) : Int :=
  (cs.map (fun c => voteTally cs c.ToVote)).foldl max 0

/-- Association lookup in the vote map. -/
def lookupVote (vs : List (Nat × Vote)) (k : Nat) : Option Vote :=
  match vs with
  | [] => none
  | (k', v) :: rest => if k' = k then some v else lookupVote rest k

/-- Tally read off the vote map (0 for an absent key). -/
def tallyOf (vs : List (Nat × Vote)) (k : Nat) : Int :=
  match lookupVote vs k with
  | some v => v.tally
  | none => 0

theorem tallyOf_addVote (vs : List (Nat × Vote)) (c : ExecutorCommitment)
    (k : Nat) :
    tallyOf (addVote vs c) k = tallyOf vs k + (if k = c.ToVote then 1 else 0) := by
  induction vs with
  | nil =>
    rcases eq_or_ne k c.ToVote with hk | hk
    · subst hk; simp [addVote, tallyOf, lookupVote]
    · simp [addVote, tallyOf, lookupVote, hk, Ne.symm hk]
  | cons kv rest ih =>
    obtain ⟨k1, v1⟩ := kv
    rcases eq_or_ne k1 c.ToVote with h1 | h1
    · subst h1
      rcases eq_or_ne k c.ToVote with h2 | h2
      · subst h2
        simp [addVote, tallyOf, lookupVote]
      · simp [addVote, tallyOf, lookupVote, h2, Ne.symm h2]
    · rcases eq_or_ne k1 k with h2 | h2
      · subst h2
        simp [addVote, tallyOf, lookupVote, h1]
      · simp only [addVote, if_neg h1, tallyOf, lookupVote, if_neg h2]
        exact ih

theorem tallyOf_buildVotes (cs : List ExecutorCommitment) :
    ∀ (vs : List (Nat × Vote)) (k : Nat),
      tallyOf (buildVotes vs cs) k = tallyOf vs k + voteTally cs k := by
  induction cs with
  | nil => intro vs k; simp [buildVotes, voteTally]
  | cons c cs ih =>
    intro vs k
    rw [buildVotes_cons, ih, tallyOf_addVote]
    simp only [voteTally, List.countP_cons]
    rcases eq_or_ne k c.ToVote with hk | hk
    · subst hk
      simp only [beq_self_eq_true, if_pos rfl]
      push_cast
      omega
    · have hb : (c.ToVote == k) = false := by
        simp [Ne.symm hk]
      simp [hk, hb]

theorem addVote_cons_hit (k1 : Nat) (v1 : Vote) (rest : List (Nat × Vote))
    (c : ExecutorCommitment) (h : k1 = c.ToVote) :
    addVote ((k1, v1) :: rest) c =
      (k1, { commit := v1.commit, tally := v1.tally + 1 }) :: rest := by
  simp [addVote, h]

theorem addVote_cons_miss (k1 : Nat) (v1 : Vote) (rest : List (Nat × Vote))
    (c : ExecutorCommitment) (h : k1 ≠ c.ToVote) :
    addVote ((k1, v1) :: rest) c = (k1, v1) :: addVote rest c := by
  simp [addVote, h]

theorem lookupVote_cons_hit (k1 : Nat) (v1 : Vote) (rest : List (Nat × Vote))
    (k : Nat) (h : k1 = k) : lookupVote ((k1, v1) :: rest) k = some v1 := by
  simp [lookupVote, h]

theorem lookupVote_cons_miss (k1 : Nat) (v1 : Vote) (rest : List (Nat × Vote))
    (k : Nat) (h : k1 ≠ k) : lookupVote ((k1, v1) :: rest) k = lookupVote rest k := by
  simp [lookupVote, h]

theorem keys_addVote (vs : List (Nat × Vote)) (c : ExecutorCommitment) (k : Nat) :
    k ∈ (addVote vs c).map Prod.fst ↔ k ∈ vs.map Prod.fst ∨ k = c.ToVote := by
  induction vs with
  | nil => simp [addVote]
  | cons kv rest ih =>
    obtain ⟨k1, v1⟩ := kv
    rcases eq_or_ne k1 c.ToVote with h1 | h1
    · rw [addVote_cons_hit k1 v1 rest c h1]
      simp only [List.map_cons, List.mem_cons]
      subst h1
      tauto
    · rw [addVote_cons_miss k1 v1 rest c h1]
      simp only [List.map_cons, List.mem_cons, ih]
      tauto

theorem keys_buildVotes (cs : List ExecutorCommitment) :
    ∀ (vs : List (Nat × Vote)) (k : Nat),
      k ∈ (buildVotes vs cs).map Prod.fst ↔
        k ∈ vs.map Prod.fst ∨ k ∈ cs.map ExecutorCommitment.ToVote := by
  induction cs with
  | nil => intro vs k; simp [buildVotes]
  | cons c cs ih =>
    intro vs k
    rw [buildVotes_cons, ih]
    simp only [keys_addVote, List.map_cons, List.mem_cons]
    tauto

theorem keys_addVote_nodup (vs : List (Nat × Vote)) (c : ExecutorCommitment)
    (h : (vs.map Prod.fst).Nodup) : ((addVote vs c).map Prod.fst).Nodup := by
  induction vs with
  | nil => simp [addVote]
  | cons kv rest ih =>
    obtain ⟨k1, v1⟩ := kv
    simp only [List.map_cons, List.nodup_cons] at h
    rcases eq_or_ne k1 c.ToVote with h1 | h1
    · rw [addVote_cons_hit k1 v1 rest c h1]
      simp only [List.map_cons, List.nodup_cons]
      exact ⟨h.1, h.2⟩
    · rw [addVote_cons_miss k1 v1 rest c h1]
      simp only [List.map_cons, List.nodup_cons]
      refine ⟨?_, ih h.2⟩
      rw [keys_addVote]
      rintro (hmem | heq)
      · exact h.1 hmem
      · exact h1 heq

theorem keys_buildVotes_nodup (cs : List ExecutorCommitment) :
    ∀ vs : List (Nat × Vote), (vs.map Prod.fst).Nodup →
      ((buildVotes vs cs).map Prod.fst).Nodup := by
  induction cs with
  | nil => intro vs h; simpa [buildVotes] using h
  | cons c cs ih =>
    intro vs h
    rw [buildVotes_cons]
    exact ih _ (keys_addVote_nodup vs c h)

theorem lookupVote_mem (vs : List (Nat × Vote)) (k : Nat) (v : Vote)
    (h : lookupVote vs k = some v) : (k, v) ∈ vs := by
  induction vs with
  | nil => simp [lookupVote] at h
  | cons kv rest ih =>
    obtain ⟨k1, v1⟩ := kv
    rcases eq_or_ne k1 k with hk | hk
    · rw [lookupVote_cons_hit k1 v1 rest k hk] at h
      injection h with h2
      subst h2
      subst hk
      simp
    · rw [lookupVote_cons_miss k1 v1 rest k hk] at h
      exact List.mem_cons_of_mem _ (ih h)

theorem mem_lookupVote (vs : List (Nat × Vote)) (k : Nat) (v : Vote)
    (hnd : (vs.map Prod.fst).Nodup) (h : (k, v) ∈ vs) :
    lookupVote vs k = some v := by
  induction vs with
  | nil => simp at h
  | cons kv rest ih =>
    obtain ⟨k1, v1⟩ := kv
    simp only [List.map_cons, List.nodup_cons] at hnd
    rcases List.mem_cons.1 h with heq | hmem
    · injection heq with e1 e2
      subst e1
      subst e2
      simp [lookupVote]
    · have hk : k1 ≠ k := by
        intro hc
        subst hc
        exact hnd.1 (List.mem_map.2 ⟨(k1, v), hmem, rfl⟩)
      rw [lookupVote_cons_miss k1 v1 rest k hk]
      exact ih hnd.2 hmem

theorem lookupVote_isSome_of_mem_keys (vs : List (Nat × Vote)) (k : Nat)
    (h : k ∈ vs.map Prod.fst) : ∃ v, lookupVote vs k = some v := by
  induction vs with
  | nil => simp at h
  | cons kv rest ih =>
    obtain ⟨k1, v1⟩ := kv
    rcases eq_or_ne k1 k with hk | hk
    · exact ⟨v1, lookupVote_cons_hit k1 v1 rest k hk⟩
    · simp only [List.map_cons, List.mem_cons] at h
      rcases h with h | h
      · exact absurd h.symm hk
      · rw [lookupVote_cons_miss k1 v1 rest k hk]
        exact ih h

theorem addVote_commit_isSome (vs : List (Nat × Vote)) (c : ExecutorCommitment)
    (h : ∀ x ∈ vs, x.2.commit.isSome) :
    ∀ x ∈ addVote vs c, x.2.commit.isSome := by
  induction vs with
  | nil =>
    intro x hx
    simp only [addVote, List.mem_singleton] at hx
    subst hx
    simp
  | cons kv rest ih =>
    obtain ⟨k1, v1⟩ := kv
    intro x hx
    rcases eq_or_ne k1 c.ToVote with h1 | h1
    · rw [addVote_cons_hit k1 v1 rest c h1] at hx
      rcases List.mem_cons.1 hx with hx | hx
      · subst hx
        simpa using h (k1, v1) (by simp)
      · exact h x (List.mem_cons_of_mem _ hx)
    · rw [addVote_cons_miss k1 v1 rest c h1] at hx
      rcases List.mem_cons.1 hx with hx | hx
      · subst hx
        exact h (k1, v1) (by simp)
      · exact ih (fun y hy => h y (List.mem_cons_of_mem _ hy)) x hx

theorem buildVotes_commit_isSome (cs : List ExecutorCommitment) :
    ∀ vs : List (Nat × Vote), (∀ x ∈ vs, x.2.commit.isSome) →
      ∀ e ∈ buildVotes vs cs, e.2.commit.isSome := by
  induction cs with
  | nil => intro vs h e he; exact h e he
  | cons c cs ih =>
    intro vs h e he
    rw [buildVotes_cons] at he
    exact ih (addVote vs c) (addVote_commit_isSome vs c h) e he

/-- Every entry of the vote map built from `cs` carries the tally of its key
over `cs`, a key occurring in `cs`, and a stored example commitment. -/
theorem buildVotes_entry (cs : List ExecutorCommitment) (e : Nat × Vote)
    (he : e ∈ buildVotes [] cs) :
    e.2.tally = voteTally cs e.1 ∧
      e.1 ∈ cs.map ExecutorCommitment.ToVote ∧ e.2.commit.isSome := by
  have hnd : ((buildVotes ([] : List (Nat × Vote)) cs).map Prod.fst).Nodup :=
    keys_buildVotes_nodup cs [] (by simp)
  have hlk : lookupVote (buildVotes [] cs) e.1 = some e.2 := by
    rcases e with ⟨k, v⟩
    exact mem_lookupVote _ _ _ hnd he
  have htally : tallyOf (buildVotes [] cs) e.1 = e.2.tally := by
    simp [tallyOf, hlk]
  have hkey : e.1 ∈ (buildVotes ([] : List (Nat × Vote)) cs).map Prod.fst :=
    List.mem_map.2 ⟨e, he, rfl⟩
  refine ⟨?_, ?_, ?_⟩
  · rw [← htally, tallyOf_buildVotes]
    simp [tallyOf, lookupVote]
  · rcases (keys_buildVotes cs [] e.1).1 hkey with h | h
    · simp at h
    · exact h
  · exact buildVotes_commit_isSome cs [] (by simp) e he

/-! ## The top vote -/

theorem foldlMax_init_le (l : List Int) : ∀ a : Int, a ≤ l.foldl max a := by
  induction l with
  | nil => intro a; simp
  | cons x rest ih =>
    intro a
    exact le_trans (le_max_left a x) (ih (max a x))

theorem foldlMax_mem_le (l : List Int) :
    ∀ (a x : Int), x ∈ l → x ≤ l.foldl max a := by
  induction l with
  | nil => intro a x hx; simp at hx
  | cons y rest ih =>
    intro a x hx
    rcases List.mem_cons.1 hx with h | h
    · subst h
      exact le_trans (le_max_right a x) (foldlMax_init_le rest (max a x))
    · exact ih (max a y) x h

theorem foldlMax_le (l : List Int) :
    ∀ (a m : Int), a ≤ m → (∀ x ∈ l, x ≤ m) → l.foldl max a ≤ m := by
  induction l with
  | nil => intro a m ha _; simpa using ha
  | cons y rest ih =>
    intro a m ha h
    exact ih (max a y) m (max_le ha (h y (by simp)))
      (fun x hx => h x (List.mem_cons_of_mem _ hx))

theorem foldlMax_congr_mem (l1 l2 : List Int)
    (h : ∀ x, x ∈ l1 ↔ x ∈ l2) : l1.foldl max 0 = l2.foldl max 0 := by
  apply le_antisymm
  · exact foldlMax_le l1 0 _ (foldlMax_init_le l2 0)
      (fun x hx => foldlMax_mem_le l2 0 x ((h x).1 hx))
  · exact foldlMax_le l2 0 _ (foldlMax_init_le l1 0)
      (fun x hx => foldlMax_mem_le l1 0 x ((h x).2 hx))

theorem selectTop_go_tally (vs : List (Nat × Vote)) :
    ∀ acc : Vote,
      (vs.foldl (fun acc kv => if kv.2.tally > acc.tally then kv.2 else acc) acc).tally =
        (vs.map (fun e => e.2.tally)).foldl max acc.tally := by
  induction vs with
  | nil => intro acc; simp
  | cons kv rest ih =>
    intro acc
    simp only [List.foldl_cons, List.map_cons]
    by_cases h : kv.2.tally > acc.tally
    · rw [if_pos h, ih, max_eq_right (le_of_lt h)]
    · rw [if_neg h, ih, max_eq_left (not_lt.1 h)]

theorem selectTop_tally (vs : List (Nat × Vote)) :
    (selectTop vs).tally = (vs.map (fun e => e.2.tally)).foldl max 0 :=
  selectTop_go_tally vs { commit := none, tally := 0 }

theorem selectTop_go_mem (vs : List (Nat × Vote)) :
    ∀ acc : Vote,
      (vs.foldl (fun acc kv => if kv.2.tally > acc.tally then kv.2 else acc) acc)
          ∈ vs.map Prod.snd ∨
        (vs.foldl (fun acc kv => if kv.2.tally > acc.tally then kv.2 else acc) acc)
          = acc := by
  induction vs with
  | nil => intro acc; simp
  | cons kv rest ih =>
    intro acc
    simp only [List.foldl_cons, List.map_cons]
    rcases ih (if kv.2.tally > acc.tally then kv.2 else acc) with h | h
    · exact Or.inl (List.mem_cons_of_mem _ h)
    · rw [h]
      by_cases hgt : kv.2.tally > acc.tally
      · exact Or.inl (by rw [if_pos hgt]; simp)
      · exact Or.inr (by rw [if_neg hgt])

theorem selectTop_mem (vs : List (Nat × Vote))
    (h : 0 < (selectTop vs).tally) : selectTop vs ∈ vs.map Prod.snd := by
  rcases selectTop_go_mem vs { commit := none, tally := 0 } with hm | hacc
  · exact hm
  · exfalso
    have h0 : (selectTop vs).tally = 0 := by
      rw [selectTop, hacc]
    omega

/-- Sum of all tallies in a vote map. -/
def sumTallies (vs : List (Nat × Vote)) : Int :=
  (vs.map (fun e => e.2.tally)).sum

theorem sumTallies_addVote (vs : List (Nat × Vote)) (c : ExecutorCommitment) :
    sumTallies (addVote vs c) = sumTallies vs + 1 := by
  induction vs with
  | nil => simp [addVote, sumTallies]
  | cons kv rest ih =>
    obtain ⟨k1, v1⟩ := kv
    rcases eq_or_ne k1 c.ToVote with h1 | h1
    · rw [addVote_cons_hit k1 v1 rest c h1]
      simp [sumTallies]
      ring
    · rw [addVote_cons_miss k1 v1 rest c h1]
      simp only [sumTallies, List.map_cons, List.sum_cons] at ih ⊢
      omega

theorem sumTallies_buildVotes (cs : List ExecutorCommitment) :
    ∀ vs : List (Nat × Vote),
      sumTallies (buildVotes vs cs) = sumTallies vs + cs.length := by
  induction cs with
  | nil => intro vs; simp [buildVotes]
  | cons c cs ih =>
    intro vs
    rw [buildVotes_cons, ih, sumTallies_addVote]
    simp only [List.length_cons]
    push_cast
    ring

theorem sumTallies_nonneg (vs : List (Nat × Vote))
    (hnn : ∀ x ∈ vs, 0 ≤ x.2.tally) : 0 ≤ sumTallies vs := by
  induction vs with
  | nil => simp [sumTallies]
  | cons x rest ih =>
    simp only [sumTallies, List.map_cons, List.sum_cons]
    have h1 := hnn x (by simp)
    have h2 : 0 ≤ sumTallies rest :=
      ih (fun y hy => hnn y (List.mem_cons_of_mem _ hy))
    simp only [sumTallies] at h2
    omega

theorem mem_tally_le_sum (vs : List (Nat × Vote)) (a : Nat × Vote)
    (ha : a ∈ vs) (hnn : ∀ x ∈ vs, 0 ≤ x.2.tally) :
    a.2.tally ≤ sumTallies vs := by
  induction vs with
  | nil => cases ha
  | cons x rest ih =>
    have hrest : 0 ≤ sumTallies rest :=
      sumTallies_nonneg rest (fun y hy => hnn y (List.mem_cons_of_mem _ hy))
    simp only [sumTallies, List.map_cons, List.sum_cons]
    rcases List.mem_cons.1 ha with h | h
    · subst h
      simp only [sumTallies] at hrest
      omega
    · have := ih h (fun y hy => hnn y (List.mem_cons_of_mem _ hy))
      have hx := hnn x (by simp)
      simp only [sumTallies] at this
      omega

theorem two_mem_tally_sum (vs : List (Nat × Vote)) (a b : Nat × Vote)
    (ha : a ∈ vs) (hb : b ∈ vs) (hab : a ≠ b)
    (hnn : ∀ x ∈ vs, 0 ≤ x.2.tally) :
    a.2.tally + b.2.tally ≤ sumTallies vs := by
  induction vs with
  | nil => cases ha
  | cons x rest ih =>
    have hnnr : ∀ y ∈ rest, 0 ≤ y.2.tally :=
      fun y hy => hnn y (List.mem_cons_of_mem _ hy)
    simp only [sumTallies, List.map_cons, List.sum_cons]
    rcases List.mem_cons.1 ha with h1 | h1
    · subst h1
      have hbr : b ∈ rest := by
        rcases List.mem_cons.1 hb with h2 | h2
        · exact absurd h2.symm hab
        · exact h2
      have := mem_tally_le_sum rest b hbr hnnr
      simp only [sumTallies] at this
      omega
    · rcases List.mem_cons.1 hb with h2 | h2
      · subst h2
        have := mem_tally_le_sum rest a h1 hnnr
        simp only [sumTallies] at this
        omega
      · have := ih h1 h2 hnnr
        have hx := hnn x (by simp)
        simp only [sumTallies] at this
        omega

/-- The algorithm's top-vote tally equals the specification-level maximum
tally over the commitment list. -/
theorem selectTop_buildVotes_tally (cs : List ExecutorCommitment) :
    (selectTop (buildVotes [] cs)).tally = topVoteTally cs := by
  rw [selectTop_tally, topVoteTally]
  apply foldlMax_congr_mem
  intro x
  constructor
  · intro hx
    rcases List.mem_map.1 hx with ⟨e, he, rfl⟩
    obtain ⟨htally, hkey, _⟩ := buildVotes_entry cs e he
    rcases List.mem_map.1 hkey with ⟨c0, hc0, hk0⟩
    exact List.mem_map.2 ⟨c0, hc0, by rw [htally, ← hk0]⟩
  · intro hx
    rcases List.mem_map.1 hx with ⟨c0, hc0, rfl⟩
    have hkey : c0.ToVote ∈ (buildVotes ([] : List (Nat × Vote)) cs).map Prod.fst :=
      (keys_buildVotes cs [] c0.ToVote).2
        (Or.inr (List.mem_map.2 ⟨c0, hc0, rfl⟩))
    rcases lookupVote_isSome_of_mem_keys _ _ hkey with ⟨v, hv⟩
    have hmem := lookupVote_mem _ _ _ hv
    obtain ⟨htally, _, _⟩ := buildVotes_entry cs (c0.ToVote, v) hmem
    exact List.mem_map.2 ⟨(c0.ToVote, v), hmem, htally⟩

/-- In resolution mode the scan never exits early; it returns the counts
over the backup workers. -/
theorem scanSpec_resolution (lk : Nat → Option ExecutorCommitment)
    (ms : List CommitteeNode) :
    scanSpec true lk ms { total := 0, commits := 0, failures := 0, votes := [] } =
      some
        { total := ((activeMembers true ms).length : Int)
          commits := ((activeCommits true lk ms).length : Int)
          failures := ((failureCount true lk ms) : Int)
          votes := buildVotes [] (nonFailureCommits true lk ms) } := by
  rw [scanSpec, if_neg (by rintro ⟨h, _⟩; cases h)]
  simp

/-- Claim C3: in resolution mode, with the proposer committed or no timeout,
`ProcessCommitments` uses the strict backup-worker majority `required =
⌊total/2⌋ + 1`; when even `topVote.tally + (total − commits)` falls short of
it the verdict is `ErrInsufficientVotes` outright (for either `didTimeout`),
and otherwise, when `topVote.tally < required` or the proposer is absent,
the verdict is `ErrInsufficientVotes` under a timeout and `ErrStillWaiting`
without one. -/
theorem c3_resolution_mode (p : Pool) (dt : Bool) (c : Committee)
    (prop : CommitteeNode)
    (hdisc : p.Discrepancy = true)
    (hc : p.Committee = some c)
    (hk : c.kind = CommitteeKind.computeExecutor)
    (hprop : c.TransactionScheduler p.Round = some prop)
    (hpa : (ecLookup p.ExecuteCommitments prop.publicKey).isSome ∨ dt = false) :
    (topVoteTally (nonFailureCommits true (ecLookup p.ExecuteCommitments) c.members) +
        (roleTotal true c - roleCommits true p c) <
        (roleTotal true c).tdiv 2 + 1 →
      p.ProcessCommitments dt = (p, .fail .insufficientVotes)) ∧
    (¬ (topVoteTally (nonFailureCommits true (ecLookup p.ExecuteCommitments) c.members) +
        (roleTotal true c - roleCommits true p c) <
        (roleTotal true c).tdiv 2 + 1) →
      (topVoteTally (nonFailureCommits true (ecLookup p.ExecuteCommitments) c.members) <
          (roleTotal true c).tdiv 2 + 1 ∨
        ecLookup p.ExecuteCommitments prop.publicKey = none) →
      p.ProcessCommitments dt =
        (p, .fail (if dt then Err.insufficientVotes else Err.stillWaiting))) := by
  have hpcne : ¬ (ecLookup p.ExecuteCommitments prop.publicKey = none ∧
      dt = true) := by
    rintro ⟨hnone, hdt⟩
    rcases hpa with h | h
    · rw [hnone] at h; simp at h
    · rw [h] at hdt; cases hdt
  have heq := processCommitmentsWith_eq_branch id p dt c _ prop hc hk
    (by rw [hdisc]; exact scanSpec_resolution (ecLookup p.ExecuteCommitments) c.members)
    hprop hpcne
  rw [hdisc] at heq
  have hpc : p.ProcessCommitments dt = resolutionBranch id p
      { total := roleTotal true c
        commits := roleCommits true p c
        failures := roleFailures true p c
        votes := buildVotes []
          (nonFailureCommits true (ecLookup p.ExecuteCommitments) c.members) }
      (ecLookup p.ExecuteCommitments prop.publicKey) dt := heq
  refine ⟨?_, ?_⟩
  · intro hA
    rw [hpc]
    simp only [resolutionBranch, id_eq]
    rw [if_pos (by rw [selectTop_buildVotes_tally]; exact hA)]
  · intro hnA hBor
    rw [hpc]
    simp only [resolutionBranch, id_eq]
    rw [if_neg (by rw [selectTop_buildVotes_tally]; exact hnA)]
    rcases hBor with hlt | hnone
    · cases hlook : ecLookup p.ExecuteCommitments prop.publicKey with
      | none => rfl
      | some pc =>
        simp only []
        rw [if_pos (by rw [selectTop_buildVotes_tally]; exact hlt)]
    · rw [hnone]

/-- Pool exhibiting the missing detection-mode proposer check: the proposer
(node 1) indicates failure while workers 2 and 3 agree on vote 10. -/
def c1pool : Pool :=
  { exPool with
    ExecuteCommitments :=
      [(1, exFailCommit 1), (2, exCommit 2 10), (3, exCommit 3 10)] }

/-- Counterexample to claim C1: in detection mode, with every worker
committed and the proposer committed (Step 6 reached), the proposer's
commitment fails `MostlyEqual` against every surviving non-failure worker
commitment, yet `ProcessCommitments` succeeds with the proposer commitment
instead of returning `ErrBadProposerCommitment` — the claimed detection-mode
check does not exist in the code. -/
theorem c1_counterexample :
    exCommittee.TransactionScheduler c1pool.Round = some ⟨1, Role.worker⟩ ∧
    roleCommits false c1pool exCommittee = roleTotal false exCommittee ∧
    ecLookup c1pool.ExecuteCommitments 1 = some (exFailCommit 1) ∧
    (∀ b ∈ nonFailureCommits false (ecLookup c1pool.ExecuteCommitments)
        exCommittee.members, (exFailCommit 1).MostlyEqual b = false) ∧
    c1pool.ProcessCommitments false = (c1pool, Verdict.ok (exFailCommit 1)) := by
  decide

/-- Claim C1 (amended): the `mostlyEqual` proposer-agreement check runs only
in resolution mode — there, once `topVote.tally ≥ required` and the proposer
has committed, the verdict is `Ok(proposerCommit)` when
`proposerCommit.MostlyEqual(topVote.commit)` holds and
`ErrBadProposerCommitment` otherwise; in detection mode no mostly-equal
check is performed and the proposer's commitment is returned as-is. -/
theorem c1_amended_proposer_check (p : Pool) (dt : Bool) (c : Committee)
    (prop : CommitteeNode)
    (hc : p.Committee = some c)
    (hk : c.kind = CommitteeKind.computeExecutor)
    (hprop : c.TransactionScheduler p.Round = some prop) :
    (∀ pc tc, p.Discrepancy = true →
      ecLookup p.ExecuteCommitments prop.publicKey = some pc →
      ¬ (topVoteTally (nonFailureCommits true (ecLookup p.ExecuteCommitments) c.members) +
          (roleTotal true c - roleCommits true p c) < (roleTotal true c).tdiv 2 + 1) →
      ¬ (topVoteTally (nonFailureCommits true (ecLookup p.ExecuteCommitments) c.members) <
          (roleTotal true c).tdiv 2 + 1) →
      (selectTop (buildVotes []
        (nonFailureCommits true (ecLookup p.ExecuteCommitments) c.members))).commit =
        some tc →
      p.ProcessCommitments dt =
        (p, if pc.MostlyEqual tc then .ok pc else .fail .badProposerCommitment)) ∧
    (∀ rt pc, p.Discrepancy = false →
      p.Runtime = some rt →
      (∀ a ∈ nonFailureCommits false (ecLookup p.ExecuteCommitments) c.members,
        ∀ b ∈ nonFailureCommits false (ecLookup p.ExecuteCommitments) c.members,
          a.ToVote = b.ToVote) →
      ecLookup p.ExecuteCommitments prop.publicKey = some pc →
      roleFailures false p c ≤ (rt.Executor.AllowedStragglers : Int) →
      ¬ ((if dt then roleCommits false p c - roleFailures false p c
          else roleCommits false p c) <
         (if dt then roleTotal false c - (rt.Executor.AllowedStragglers : Int)
          else roleTotal false c)) →
      p.ProcessCommitments dt = (p, .ok pc)) := by
  constructor
  · intro pc tc hdisc hpcsome hnA hnB htc
    have hpcne : ¬ (ecLookup p.ExecuteCommitments prop.publicKey = none ∧
        dt = true) := by
      rintro ⟨hnone, _⟩
      rw [hpcsome] at hnone
      cases hnone
    have heq := processCommitmentsWith_eq_branch id p dt c _ prop hc hk
      (by rw [hdisc];
          exact scanSpec_resolution (ecLookup p.ExecuteCommitments) c.members)
      hprop hpcne
    rw [hdisc] at heq
    have hpc : p.ProcessCommitments dt = resolutionBranch id p
        { total := roleTotal true c
          commits := roleCommits true p c
          failures := roleFailures true p c
          votes := buildVotes []
            (nonFailureCommits true (ecLookup p.ExecuteCommitments) c.members) }
        (ecLookup p.ExecuteCommitments prop.publicKey) dt := heq
    rw [hpc]
    simp only [resolutionBranch, id_eq]
    rw [if_neg (by rw [selectTop_buildVotes_tally]; exact hnA), hpcsome]
    simp only []
    rw [if_neg (by rw [selectTop_buildVotes_tally]; exact hnB), htc]
    cases hme : pc.MostlyEqual tc <;> simp [hme]
  · intro rt pc hdisc hrt hnosplit hpcsome hle hnotlt
    have hpcne : ¬ (ecLookup p.ExecuteCommitments prop.publicKey = none ∧
        dt = true) := by
      rintro ⟨hnone, _⟩
      rw [hpcsome] at hnone
      cases hnone
    have heq := processCommitmentsWith_eq_branch id p dt c _ prop hc hk
      (by rw [hdisc];
          exact scanSpec_of_single_key false (ecLookup p.ExecuteCommitments)
            c.members hnosplit)
      hprop hpcne
    rw [hdisc] at heq
    have hpc : p.ProcessCommitments dt = detectionBranch p
        { total := roleTotal false c
          commits := roleCommits false p c
          failures := roleFailures false p c
          votes := buildVotes []
            (nonFailureCommits false (ecLookup p.ExecuteCommitments) c.members) }
        (ecLookup p.ExecuteCommitments prop.publicKey) dt := heq
    rw [hpc]
    simp only [detectionBranch, hrt, hpcsome]
    rw [if_neg (by simpa using not_lt.2 hle), if_neg (by simpa using hnotlt)]

/-- Resolution-mode pool for the C1 witness: backup workers 4 and 5 vote 10
and the proposer agrees. -/
def c1wpool : Pool :=
  { exPool with
    Discrepancy := true
    ExecuteCommitments :=
      [(1, exCommit 1 10), (4, exCommit 4 10), (5, exCommit 5 10)] }

/-- Witness for the amended claim C1 at a concrete resolution-mode pool. -/
theorem c1_amended_witness :
    c1wpool.ProcessCommitments false = (c1wpool, Verdict.ok (exCommit 1 10)) := by
  have h := (c1_amended_proposer_check c1wpool false exCommittee
      ⟨1, Role.worker⟩ rfl rfl (by decide)).1
    (exCommit 1 10) (exCommit 4 10) rfl (by decide) (by decide) (by decide)
    (by decide)
  exact h

/-- Detection-mode pool for the C2 witness: workers 1 and 2 vote 10, worker
3 is silent. -/
def c2pool : Pool :=
  { exPool with ExecuteCommitments := [(1, exCommit 1 10), (2, exCommit 2 10)] }

/-- Witness for claim C2: after the timeout, two agreeing commitments out of
three workers with one allowed straggler finalize on the proposer
commitment. -/
theorem c2_witness :
    c2pool.ProcessCommitments true = (c2pool, Verdict.ok (exCommit 1 10)) := by
  have h := c2_detection_mode c2pool true exCommittee exRuntime
    ⟨1, Role.worker⟩ rfl rfl rfl rfl (by decide) (by decide) (Or.inl (by decide))
  exact (h.2 (by decide)).2 (exCommit 1 10) (by decide) (by decide)

theorem one_lt_length_of_two_mem {α : Type} (l : List α) (a b : α)
    (ha : a ∈ l) (hb : b ∈ l) (hne : a ≠ b) : 1 < l.length := by
  cases l with
  | nil => cases ha
  | cons x rest =>
    cases rest with
    | nil =>
      simp only [List.mem_singleton] at ha hb
      exact absurd (ha.trans hb.symm) hne
    | cons y rest2 => simp

theorem mem_nonFailureCommits (disc : Bool)
    (lk : Nat → Option ExecutorCommitment) (ms : List CommitteeNode)
    (n : CommitteeNode) (cm : ExecutorCommitment)
    (hm : n ∈ ms) (hr : n.role = activeRole disc)
    (hcm : lk n.publicKey = some cm) (hf : cm.IsIndicatingFailure = false) :
    cm ∈ nonFailureCommits disc lk ms := by
  have hact : n ∈ activeMembers disc ms :=
    List.mem_filter.2 ⟨hm, by simp [hr]⟩
  have hcom : cm ∈ activeCommits disc lk ms :=
    List.mem_filterMap.2 ⟨n, hact, hcm⟩
  exact List.mem_filter.2 ⟨hcom, by simp [hf]⟩

/-- Claim C4: in detection mode, two worker commitments with distinct
non-failure vote keys flip the pool to resolution mode and return
`ErrDiscrepancyDetected`, for either `didTimeout` value and regardless of
the other commitments. -/
theorem c4_early_discrepancy (p : Pool) (dt : Bool) (c : Committee)
    (n1 n2 : CommitteeNode) (c1 c2 : ExecutorCommitment)
    (hdisc : p.Discrepancy = false)
    (hc : p.Committee = some c)
    (hk : c.kind = CommitteeKind.computeExecutor)
    (h1m : n1 ∈ c.members) (h1r : n1.role = Role.worker)
    (h1c : ecLookup p.ExecuteCommitments n1.publicKey = some c1)
    (h1f : c1.IsIndicatingFailure = false)
    (h2m : n2 ∈ c.members) (h2r : n2.role = Role.worker)
    (h2c : ecLookup p.ExecuteCommitments n2.publicKey = some c2)
    (h2f : c2.IsIndicatingFailure = false)
    (hne : c1.ToVote ≠ c2.ToVote) :
    p.ProcessCommitments dt =
      ({ p with Discrepancy := true }, .fail .discrepancyDetected) := by
  have hm1 : c1 ∈ nonFailureCommits false (ecLookup p.ExecuteCommitments) c.members :=
    mem_nonFailureCommits false _ _ n1 c1 h1m (by simp [activeRole, h1r]) h1c h1f
  have hm2 : c2 ∈ nonFailureCommits false (ecLookup p.ExecuteCommitments) c.members :=
    mem_nonFailureCommits false _ _ n2 c2 h2m (by simp [activeRole, h2r]) h2c h2f
  have hk1 : c1.ToVote ∈ (buildVotes []
      (nonFailureCommits false (ecLookup p.ExecuteCommitments) c.members)).map Prod.fst :=
    (keys_buildVotes _ [] _).2 (Or.inr (List.mem_map.2 ⟨c1, hm1, rfl⟩))
  have hk2 : c2.ToVote ∈ (buildVotes []
      (nonFailureCommits false (ecLookup p.ExecuteCommitments) c.members)).map Prod.fst :=
    (keys_buildVotes _ [] _).2 (Or.inr (List.mem_map.2 ⟨c2, hm2, rfl⟩))
  have hlen : 1 < (buildVotes []
      (nonFailureCommits false (ecLookup p.ExecuteCommitments) c.members)).length := by
    have := one_lt_length_of_two_mem _ _ _ hk1 hk2 hne
    simpa using this
  show Pool.ProcessCommitmentsWith id p dt = _
  unfold Pool.ProcessCommitmentsWith
  rw [hc]
  simp only [hk, ne_eq, not_true_eq_false, if_false]
  rw [gather_eq_scanSpec p.Discrepancy (ecLookup p.ExecuteCommitments) c.members
    { total := 0, commits := 0, failures := 0, votes := [] } (by intro _; simp)]
  rw [scanSpec, if_pos ⟨hdisc, by rw [hdisc]; exact hlen⟩]

/-- Detection-mode pool for the C4 witness: workers 1 and 2 disagree. -/
def c4pool : Pool :=
  { exPool with ExecuteCommitments := [(1, exCommit 1 10), (2, exCommit 2 20)] }

/-- Witness for claim C4 at a concrete pool with a two-way worker split. -/
theorem c4_witness :
    c4pool.ProcessCommitments false =
      ({ c4pool with Discrepancy := true }, .fail .discrepancyDetected) := by
  exact c4_early_discrepancy c4pool false exCommittee ⟨1, Role.worker⟩
    ⟨2, Role.worker⟩ (exCommit 1 10) (exCommit 2 20) rfl rfl rfl
    (by decide) rfl (by decide) rfl (by decide) rfl (by decide) rfl (by decide)

theorem detectionBranch_pool_cases (p : Pool) (s : ScanState)
    (pcommit : Option ExecutorCommitment) (dt : Bool) :
    (detectionBranch p s pcommit dt).1 = p ∨
      ((detectionBranch p s pcommit dt).1 = { p with Discrepancy := true } ∧
        (detectionBranch p s pcommit dt).2 = .fail .discrepancyDetected) := by
  unfold detectionBranch
  simp only [gt_iff_lt]
  repeat' split
  all_goals first | (left; rfl) | (right; exact ⟨rfl, rfl⟩)

theorem resolutionBranch_pool_cases
    (vo : List (Nat × Vote) → List (Nat × Vote)) (p : Pool) (s : ScanState)
    (pcommit : Option ExecutorCommitment) (dt : Bool) :
    (resolutionBranch vo p s pcommit dt).1 = p := by
  unfold resolutionBranch
  simp only [gt_iff_lt]
  repeat' split
  all_goals rfl

/-- `ProcessCommitments` returns the pool unchanged, or with only the
discrepancy flag newly set alongside an `ErrDiscrepancyDetected` verdict. -/
theorem processCommitments_pool_cases (p : Pool) (dt : Bool) :
    (p.ProcessCommitments dt).1 = p ∨
      ((p.ProcessCommitments dt).1 = { p with Discrepancy := true } ∧
        (p.ProcessCommitments dt).2 = .fail .discrepancyDetected) := by
  unfold Pool.ProcessCommitments Pool.ProcessCommitmentsWith
  cases hc : p.Committee with
  | none => left; rfl
  | some c =>
    dsimp only
    by_cases hk : c.kind ≠ CommitteeKind.computeExecutor
    · rw [if_pos hk]; left; rfl
    · rw [if_neg hk]
      cases hg : gather p.Discrepancy (ecLookup p.ExecuteCommitments) c.members
          { total := 0, commits := 0, failures := 0, votes := [] } with
      | none => right; exact ⟨rfl, rfl⟩
      | some s =>
        dsimp only
        cases hts : c.TransactionScheduler p.Round with
        | none => left; rfl
        | some prop =>
          dsimp only
          by_cases hpn : ecLookup p.ExecuteCommitments prop.publicKey = none ∧
              dt = true
          · rw [if_pos hpn]; left; rfl
          · rw [if_neg hpn]
            cases hd : p.Discrepancy
            · exact hc ▸ detectionBranch_pool_cases p s
                (ecLookup p.ExecuteCommitments prop.publicKey) dt
            · exact Or.inl (resolutionBranch_pool_cases id p s
                (ecLookup p.ExecuteCommitments prop.publicKey) dt)


/-- Resolution-mode pool for the C3 witness: the backup workers split 1-1,
so no majority is reachable. -/
def c3pool : Pool :=
  { exPool with
    Discrepancy := true
    ExecuteCommitments :=
      [(1, exCommit 1 10), (4, exCommit 4 10), (5, exCommit 5 20)] }

/-- Witness for claim C3: a 1-1 backup split fails fast with
`ErrInsufficientVotes` even without a timeout. -/
theorem c3_witness :
    c3pool.ProcessCommitments false = (c3pool, .fail .insufficientVotes) := by
  have h := c3_resolution_mode c3pool false exCommittee ⟨1, Role.worker⟩
    rfl rfl rfl (by decide) (Or.inl (by decide))
  exact h.1 (by decide)

/-- Claim C5: `TryFinalize` on an `ErrStillWaiting` tally with the timer
fired returns `ErrDiscrepancyDetected`; when the timeout is authoritative it
also sets the discrepancy flag and arms the stretched timeout `height +
(15 × roundTimeout) / 10`, and when it is not, the discrepancy flag is left
unchanged.  On every exit `NextTimeout` is armed to the height plus an
effective timeout or cleared to `TimeoutNever`; a success and every error
other than `ErrStillWaiting`/`ErrDiscrepancyDetected` clear it. -/
theorem c5_tryFinalize (p : Pool) (height roundTimeout : Int) (dt auth : Bool) :
    ((p.ProcessCommitments dt).2 = .fail .stillWaiting → dt = true →
      (p.TryFinalize height roundTimeout dt auth).2 = .fail .discrepancyDetected ∧
      (auth = true →
        (p.TryFinalize height roundTimeout dt auth).1.Discrepancy = true ∧
        (p.TryFinalize height roundTimeout dt auth).1.NextTimeout =
          height + (15 * roundTimeout).tdiv 10) ∧
      (auth = false →
        (p.TryFinalize height roundTimeout dt auth).1.Discrepancy =
          p.Discrepancy)) ∧
    ((p.TryFinalize height roundTimeout dt auth).1.NextTimeout = TimeoutNever ∨
      (p.TryFinalize height roundTimeout dt auth).1.NextTimeout =
        height + roundTimeout ∨
      (p.TryFinalize height roundTimeout dt auth).1.NextTimeout =
        height + (15 * roundTimeout).tdiv 10) ∧
    (∀ cm, (p.TryFinalize height roundTimeout dt auth).2 = .ok cm →
      (p.TryFinalize height roundTimeout dt auth).1.NextTimeout = TimeoutNever) ∧
    (∀ e, (p.TryFinalize height roundTimeout dt auth).2 = .fail e →
      e ≠ .stillWaiting → e ≠ .discrepancyDetected →
      (p.TryFinalize height roundTimeout dt auth).1.NextTimeout = TimeoutNever) := by
  have hpool := processCommitments_pool_cases p dt
  unfold Pool.TryFinalize
  rcases hr : p.ProcessCommitments dt with ⟨p1, v⟩
  rw [hr] at hpool
  simp only at hpool
  match v with
  | .ok cm =>
    refine ⟨?_, ?_, ?_, ?_⟩
    · intro hsw; cases hsw
    · left; rfl
    · intro cm2 _; rfl
    · intro e he; cases he
  | .panicked =>
    refine ⟨?_, ?_, ?_, ?_⟩
    · intro hsw; cases hsw
    · left; rfl
    · intro cm2 hcm; cases hcm
    · intro e he; cases he
  | .fail .stillWaiting =>
    have hp1 : p1 = p := by
      rcases hpool with h | ⟨_, h2⟩
      · exact h
      · cases h2
    subst hp1
    cases dt with
    | false =>
      refine ⟨?_, ?_, ?_, ?_⟩
      · intro _ hdt; cases hdt
      · right; left
        simp only [backupWorkerTimeoutFactorNumerator,
          backupWorkerTimeoutFactorDenominator]
        rfl
      · intro cm2 hcm
        simp at hcm
      · intro e he h1 h2
        simp only [] at he
        injection he with he2
        exact absurd he2.symm h1
    | true =>
      cases auth with
      | true =>
        refine ⟨?_, ?_, ?_, ?_⟩
        · intro _ _
          refine ⟨rfl, fun _ => ⟨rfl, ?_⟩, ?_⟩
          · simp only [backupWorkerTimeoutFactorNumerator,
              backupWorkerTimeoutFactorDenominator]
            rfl
          · intro hf
            cases hf
        · right; right
          simp only [backupWorkerTimeoutFactorNumerator,
            backupWorkerTimeoutFactorDenominator]
          rfl
        · intro cm2 hcm
          simp at hcm
        · intro e he h1 h2
          simp only [] at he
          injection he with he2
          exact absurd he2.symm h2
      | false =>
        refine ⟨?_, ?_, ?_, ?_⟩
        · intro _ _
          refine ⟨rfl, ?_, fun _ => rfl⟩
          intro ht
          cases ht
        · left; rfl
        · intro cm2 hcm
          simp at hcm
        · intro e he h1 h2
          simp only [] at he
          injection he with he2
          exact absurd he2.symm h2
  | .fail .discrepancyDetected =>
    refine ⟨?_, ?_, ?_, ?_⟩
    · intro hsw; cases hsw
    · right; left; rfl
    · intro cm2 hcm; cases hcm
    · intro e he h1 h2
      injection he with he2
      exact absurd he2.symm h2
  | .fail .noRuntime =>
    exact ⟨fun hsw => (nomatch hsw), Or.inl rfl, fun cm2 hcm => (nomatch hcm),
      fun e he _ _ => rfl⟩
  | .fail .noCommittee =>
    exact ⟨fun hsw => (nomatch hsw), Or.inl rfl, fun cm2 hcm => (nomatch hcm),
      fun e he _ _ => rfl⟩
  | .fail .invalidCommitteeKind =>
    exact ⟨fun hsw => (nomatch hsw), Or.inl rfl, fun cm2 hcm => (nomatch hcm),
      fun e he _ _ => rfl⟩
  | .fail .rakSigInvalid =>
    exact ⟨fun hsw => (nomatch hsw), Or.inl rfl, fun cm2 hcm => (nomatch hcm),
      fun e he _ _ => rfl⟩
  | .fail .notInCommittee =>
    exact ⟨fun hsw => (nomatch hsw), Or.inl rfl, fun cm2 hcm => (nomatch hcm),
      fun e he _ _ => rfl⟩
  | .fail .alreadyCommitted =>
    exact ⟨fun hsw => (nomatch hsw), Or.inl rfl, fun cm2 hcm => (nomatch hcm),
      fun e he _ _ => rfl⟩
  | .fail .notBasedOnCorrectBlock =>
    exact ⟨fun hsw => (nomatch hsw), Or.inl rfl, fun cm2 hcm => (nomatch hcm),
      fun e he _ _ => rfl⟩
  | .fail .insufficientVotes =>
    exact ⟨fun hsw => (nomatch hsw), Or.inl rfl, fun cm2 hcm => (nomatch hcm),
      fun e he _ _ => rfl⟩
  | .fail .badExecutorCommitment =>
    exact ⟨fun hsw => (nomatch hsw), Or.inl rfl, fun cm2 hcm => (nomatch hcm),
      fun e he _ _ => rfl⟩
  | .fail .invalidMessages =>
    exact ⟨fun hsw => (nomatch hsw), Or.inl rfl, fun cm2 hcm => (nomatch hcm),
      fun e he _ _ => rfl⟩
  | .fail .timeoutNotCorrectRound =>
    exact ⟨fun hsw => (nomatch hsw), Or.inl rfl, fun cm2 hcm => (nomatch hcm),
      fun e he _ _ => rfl⟩
  | .fail .nodeIsScheduler =>
    exact ⟨fun hsw => (nomatch hsw), Or.inl rfl, fun cm2 hcm => (nomatch hcm),
      fun e he _ _ => rfl⟩
  | .fail .invalidRound =>
    exact ⟨fun hsw => (nomatch hsw), Or.inl rfl, fun cm2 hcm => (nomatch hcm),
      fun e he _ _ => rfl⟩
  | .fail .noProposerCommitment =>
    exact ⟨fun hsw => (nomatch hsw), Or.inl rfl, fun cm2 hcm => (nomatch hcm),
      fun e he _ _ => rfl⟩
  | .fail .badProposerCommitment =>
    exact ⟨fun hsw => (nomatch hsw), Or.inl rfl, fun cm2 hcm => (nomatch hcm),
      fun e he _ _ => rfl⟩
  | .fail .signatureInvalid =>
    exact ⟨fun hsw => (nomatch hsw), Or.inl rfl, fun cm2 hcm => (nomatch hcm),
      fun e he _ _ => rfl⟩
  | .fail (.validatorErr n) =>
    exact ⟨fun hsw => (nomatch hsw), Or.inl rfl, fun cm2 hcm => (nomatch hcm),
      fun e he _ _ => rfl⟩

/-- Pool for the C5 witness: only the proposer has committed, so the tally
is still waiting. -/
def c5pool : Pool :=
  { exPool with ExecuteCommitments := [(1, exCommit 1 10)] }

/-- Witness for claim C5: an authoritative timeout on a still-waiting pool
reports a discrepancy, sets the flag and arms the stretched timeout. -/
theorem c5_witness :
    (c5pool.TryFinalize 100 10 true true).2 = .fail .discrepancyDetected ∧
    (c5pool.TryFinalize 100 10 true true).1.Discrepancy = true ∧
    (c5pool.TryFinalize 100 10 true true).1.NextTimeout =
      100 + ((15 * 10 : Int)).tdiv 10 := by
  have h := c5_tryFinalize c5pool 100 10 true true
  have h1 := h.1 (by decide) rfl
  exact ⟨h1.1, (h1.2.1 rfl).1, (h1.2.1 rfl).2⟩

/-- The resolution-branch verdict neither depends on the traversal order of
the vote map nor on the pool value, provided the scan invariants hold: the
tallies are nonnegative and sum to at most the member total.  The crux is
that a tally reaching the strict majority identifies a unique vote entry. -/
theorem resolutionBranch_perm (vo : List (Nat × Vote) → List (Nat × Vote))
    (hvo : ∀ vs, (vo vs).Perm vs) (p q : Pool) (s : ScanState)
    (pcommit : Option ExecutorCommitment) (dt : Bool)
    (htot : 0 ≤ s.total) (hsum : sumTallies s.votes ≤ s.total)
    (hnn : ∀ e ∈ s.votes, 0 ≤ e.2.tally) :
    (resolutionBranch vo p s pcommit dt).2 =
      (resolutionBranch id q s pcommit dt).2 := by
  have hmem : ∀ x : Int, x ∈ ((vo s.votes).map (fun e => e.2.tally)) ↔
      x ∈ (s.votes.map (fun e => e.2.tally)) :=
    fun x => ((hvo s.votes).map _).mem_iff
  have htq : (selectTop (vo s.votes)).tally = (selectTop s.votes).tally := by
    rw [selectTop_tally, selectTop_tally]
    exact foldlMax_congr_mem _ _ hmem
  simp only [resolutionBranch, id_eq]
  rw [htq]
  by_cases hA : (selectTop s.votes).tally + (s.total - s.commits) <
      s.total.tdiv 2 + 1
  · rw [if_pos hA, if_pos hA]
  · rw [if_neg hA, if_neg hA]
    cases pcommit with
    | none => rfl
    | some pc =>
      dsimp only
      by_cases hB : (selectTop s.votes).tally < s.total.tdiv 2 + 1
      · rw [if_pos hB, if_pos hB]
      · rw [if_neg hB, if_neg hB]
        have ht2 : 0 < (selectTop s.votes).tally := by
          have : (1:Int) ≤ s.total.tdiv 2 + 1 := by
            rw [Int.tdiv_eq_ediv htot (by norm_num)]
            omega
          omega
        have ht1 : 0 < (selectTop (vo s.votes)).tally := by
          rw [htq]; exact ht2
        have h1mem : selectTop (vo s.votes) ∈ s.votes.map Prod.snd :=
          ((hvo s.votes).map Prod.snd).mem_iff.1 (selectTop_mem _ ht1)
        have h2mem : selectTop s.votes ∈ s.votes.map Prod.snd :=
          selectTop_mem _ ht2
        have hsel : selectTop (vo s.votes) = selectTop s.votes := by
          by_contra hne
          rcases List.mem_map.1 h1mem with ⟨e1p, he1p, he1eq⟩
          rcases List.mem_map.1 h2mem with ⟨e2p, he2p, he2eq⟩
          have hpairne : e1p ≠ e2p := by
            intro h
            exact hne (by rw [← he1eq, ← he2eq, h])
          have hsum2 := two_mem_tally_sum s.votes e1p e2p he1p he2p hpairne hnn
          have he1t : e1p.2.tally = (selectTop s.votes).tally := by
            rw [he1eq, htq]
          have he2t : e2p.2.tally = (selectTop s.votes).tally := by
            rw [he2eq]
          have hmaj : ¬ ((selectTop s.votes).tally < s.total.tdiv 2 + 1) := hB
          rw [Int.tdiv_eq_ediv htot (by norm_num)] at hmaj
          omega
        rw [hsel]
        cases hcm : (selectTop s.votes).commit with
        | none => rfl
        | some tc =>
          dsimp only
          by_cases hme : tc.MostlyEqual pc
          · cases hb : pc.MostlyEqual tc <;> rfl
          · cases hb : pc.MostlyEqual tc <;> rfl

/-- The detection-branch verdict depends on the pool only through the
runtime descriptor. -/
theorem detectionBranch_snd_congr (p q : Pool) (s : ScanState)
    (pcommit : Option ExecutorCommitment) (dt : Bool)
    (h : p.Runtime = q.Runtime) :
    (detectionBranch p s pcommit dt).2 = (detectionBranch q s pcommit dt).2 := by
  simp only [detectionBranch, h]
  cases q.Runtime with
  | none => rfl
  | some rt =>
    dsimp only
    repeat' split
    all_goals rfl

/-- Claim C6: `ProcessCommitments` is deterministic — the verdict is a
function of the pool state (up to commitment insertion order, observed only
through lookups) and `didTimeout` alone, and does not depend on the
traversal order of the `votes` map used to select the top vote in
resolution mode. -/
theorem c6_determinism (vo : List (Nat × Vote) → List (Nat × Vote))
    (hvo : ∀ vs, (vo vs).Perm vs) (p1 p2 : Pool) (dt : Bool)
    (hR : p1.Runtime = p2.Runtime) (hC : p1.Committee = p2.Committee)
    (hRd : p1.Round = p2.Round) (hD : p1.Discrepancy = p2.Discrepancy)
    (hEC : ∀ k, ecLookup p1.ExecuteCommitments k =
      ecLookup p2.ExecuteCommitments k) :
    (Pool.ProcessCommitmentsWith vo p1 dt).2 = (p2.ProcessCommitments dt).2 := by
  have hECf : ecLookup p1.ExecuteCommitments = ecLookup p2.ExecuteCommitments :=
    funext hEC
  unfold Pool.ProcessCommitments Pool.ProcessCommitmentsWith
  rw [hC, hRd, hD, hECf]
  cases hc : p2.Committee with
  | none => rfl
  | some c =>
    dsimp only
    by_cases hk : c.kind ≠ CommitteeKind.computeExecutor
    · rw [if_pos hk, if_pos hk]
    · rw [if_neg hk, if_neg hk]
      rw [gather_eq_scanSpec p2.Discrepancy (ecLookup p2.ExecuteCommitments)
        c.members { total := 0, commits := 0, failures := 0, votes := [] }
        (by intro _; simp)]
      cases hscan : scanSpec p2.Discrepancy (ecLookup p2.ExecuteCommitments)
          c.members { total := 0, commits := 0, failures := 0, votes := [] } with
      | none => rfl
      | some s =>
        dsimp only
        cases hts : c.TransactionScheduler p2.Round with
        | none => rfl
        | some prop =>
          dsimp only
          by_cases hpn : ecLookup p2.ExecuteCommitments prop.publicKey = none ∧
              dt = true
          · rw [if_pos hpn, if_pos hpn]
          · rw [if_neg hpn, if_neg hpn]
            cases hD2 : p2.Discrepancy with
            | false => exact detectionBranch_snd_congr p1 p2 s _ dt hR
            | true =>
              rw [hD2] at hscan
              rw [scanSpec_resolution] at hscan
              injection hscan with hs
              subst hs
              apply resolutionBranch_perm vo hvo p1 p2
              · simp
              · rw [sumTallies_buildVotes]
                have h1 : (nonFailureCommits true (ecLookup p2.ExecuteCommitments)
                    c.members).length ≤
                    (activeCommits true (ecLookup p2.ExecuteCommitments)
                      c.members).length :=
                  List.length_filter_le _ _
                have h2 : (activeCommits true (ecLookup p2.ExecuteCommitments)
                    c.members).length ≤ (activeMembers true c.members).length :=
                  List.length_filterMap_le _ _
                simp only [sumTallies, List.map_nil, List.sum_nil]
                omega
              · intro e he
                obtain ⟨ht, _, _⟩ := buildVotes_entry _ e he
                rw [ht]
                simp [voteTally]

/-- Resolution-mode pool for the C6 witness. -/
def c6poolA : Pool :=
  { exPool with
    Discrepancy := true
    ExecuteCommitments :=
      [(1, exCommit 1 10), (4, exCommit 4 10), (5, exCommit 5 20)] }

/-- The same pool with the commitments inserted in the opposite order. -/
def c6poolB : Pool :=
  { exPool with
    Discrepancy := true
    ExecuteCommitments :=
      [(5, exCommit 5 20), (4, exCommit 4 10), (1, exCommit 1 10)] }

/-- Witness for claim C6: reversing both the vote-map traversal order and
the commitment insertion order leaves the verdict unchanged. -/
theorem c6_witness :
    (Pool.ProcessCommitmentsWith List.reverse c6poolA true).2 =
      (c6poolB.ProcessCommitments true).2 := by
  refine c6_determinism List.reverse (fun vs => vs.reverse_perm) c6poolA c6poolB
    true rfl rfl rfl rfl ?_
  intro k
  simp only [c6poolA, c6poolB, ecLookup]
  by_cases h1 : 1 = k <;> by_cases h4 : 4 = k <;> by_cases h5 : 5 = k <;>
    simp_all
  all_goals omega

/-! ## Pool operations and invariants -/

/-- One public pool operation (the state-changing entry points). -/
inductive PoolOp where
  | reset (round : Nat)
  | add (blk : Block) (nl : Nat → Option NodeDescriptor)
      (mv : Option (List Nat → Option Nat)) (commit : ExecutorCommitment)
  | process (dt : Bool)
  | tryFin (height roundTimeout : Int) (dt auth : Bool)

/-- Apply one pool operation, keeping the updated pool. -/
def applyOp (p : Pool) : PoolOp → Pool
  | .reset r => p.ResetCommitments r
  | .add blk nl mv commit => (p.AddExecutorCommitment blk nl commit mv).1
  | .process dt => (p.ProcessCommitments dt).1
  | .tryFin h rt dt auth => (p.TryFinalize h rt dt auth).1

/-- Apply a sequence of pool operations. -/
def applyOps (p : Pool) : List PoolOp → Pool
  | [] => p
  | op :: ops => applyOps (applyOp p op) ops

/-- The commitment-map invariant: every key belongs to the committee, and
keys are unique (one commitment per node). -/
def PoolInv (p : Pool) : Prop :=
  (∀ e ∈ p.ExecuteCommitments, p.isMember e.1 = true) ∧
    (p.ExecuteCommitments.map Prod.fst).Nodup

theorem ecLookup_cons_hit (k1 : Nat) (c1 : ExecutorCommitment)
    (rest : List (Nat × ExecutorCommitment)) (k : Nat) (h : k1 = k) :
    ecLookup ((k1, c1) :: rest) k = some c1 := by
  simp [ecLookup, h]

theorem ecLookup_cons_miss (k1 : Nat) (c1 : ExecutorCommitment)
    (rest : List (Nat × ExecutorCommitment)) (k : Nat) (h : k1 ≠ k) :
    ecLookup ((k1, c1) :: rest) k = ecLookup rest k := by
  simp [ecLookup, h]

theorem ecLookup_none_not_mem (l : List (Nat × ExecutorCommitment)) (k : Nat)
    (h : ecLookup l k = none) : k ∉ l.map Prod.fst := by
  induction l with
  | nil => simp
  | cons kv rest ih =>
    obtain ⟨k1, c1⟩ := kv
    rcases eq_or_ne k1 k with hk | hk
    · rw [ecLookup_cons_hit k1 c1 rest k hk] at h
      cases h
    · rw [ecLookup_cons_miss k1 c1 rest k hk] at h
      simp only [List.map_cons, List.mem_cons]
      rintro (rfl | hmem)
      · exact hk rfl
      · exact ih h hmem

theorem ecLookup_append_of_some (l : List (Nat × ExecutorCommitment))
    (tl : List (Nat × ExecutorCommitment)) (k : Nat) (c0 : ExecutorCommitment)
    (h : ecLookup l k = some c0) : ecLookup (l ++ tl) k = some c0 := by
  induction l with
  | nil => simp [ecLookup] at h
  | cons kv rest ih =>
    obtain ⟨k1, c1⟩ := kv
    rcases eq_or_ne k1 k with hk | hk
    · rw [ecLookup_cons_hit k1 c1 rest k hk] at h
      rw [List.cons_append, ecLookup_cons_hit k1 c1 (rest ++ tl) k hk]
      exact h
    · rw [ecLookup_cons_miss k1 c1 rest k hk] at h
      rw [List.cons_append, ecLookup_cons_miss k1 c1 (rest ++ tl) k hk]
      exact ih h

/-- `AddExecutorCommitment` either rejects and leaves the pool unchanged, or
appends the commitment under its node id; insertion happens only for a
committee member with no prior entry. -/
theorem addExecutorCommitment_cases (p : Pool) (blk : Block)
    (nl : Nat → Option NodeDescriptor)
    (mv : Option (List Nat → Option Nat)) (commit : ExecutorCommitment) :
    (p.AddExecutorCommitment blk nl commit mv).1 = p ∨
      ((p.AddExecutorCommitment blk nl commit mv).1 =
        { p with ExecuteCommitments :=
            p.ExecuteCommitments ++ [(commit.nodeID, commit)] } ∧
        p.isMember commit.nodeID = true ∧
        ecLookup p.ExecuteCommitments commit.nodeID = none) := by
  unfold Pool.AddExecutorCommitment Pool.addVerifiedExecutorCommitment
  dsimp only
  repeat' split
  all_goals try (left; rfl)
  all_goals right
  all_goals refine ⟨rfl, ?_, ?_⟩ <;> simp_all [Option.not_isSome_iff_eq_none]

theorem ecLookup_mem (l : List (Nat × ExecutorCommitment)) (k : Nat)
    (c : ExecutorCommitment) (h : ecLookup l k = some c) : (k, c) ∈ l := by
  induction l with
  | nil => cases h
  | cons kv rest ih =>
    obtain ⟨k1, c1⟩ := kv
    rcases eq_or_ne k1 k with hk | hk
    · rw [ecLookup_cons_hit k1 c1 rest k hk] at h
      injection h with h2
      subst hk
      subst h2
      simp
    · rw [ecLookup_cons_miss k1 c1 rest k hk] at h
      exact List.mem_cons_of_mem _ (ih h)

theorem processCommitments_keeps (p : Pool) (dt : Bool) :
    (p.ProcessCommitments dt).1.ExecuteCommitments = p.ExecuteCommitments ∧
      (p.ProcessCommitments dt).1.Committee = p.Committee := by
  rcases processCommitments_pool_cases p dt with h | ⟨h, _⟩ <;> rw [h] <;>
    exact ⟨rfl, rfl⟩

theorem tryFinalize_keeps (p : Pool) (height roundTimeout : Int)
    (dt auth : Bool) :
    (p.TryFinalize height roundTimeout dt auth).1.ExecuteCommitments =
        p.ExecuteCommitments ∧
      (p.TryFinalize height roundTimeout dt auth).1.Committee = p.Committee := by
  have hk := processCommitments_keeps p dt
  unfold Pool.TryFinalize
  rcases hr : p.ProcessCommitments dt with ⟨p1, v⟩
  rw [hr] at hk
  dsimp only
  dsimp only at hk
  repeat' split
  all_goals exact ⟨hk.1, hk.2⟩

theorem PoolInv_congr (p q : Pool)
    (hEC : q.ExecuteCommitments = p.ExecuteCommitments)
    (hC : q.Committee = p.Committee) (hp : PoolInv p) : PoolInv q := by
  constructor
  · intro e he
    rw [hEC] at he
    have := hp.1 e he
    unfold Pool.isMember
    rw [hC]
    exact this
  · rw [hEC]
    exact hp.2

theorem PoolInv_applyOp (p : Pool) (op : PoolOp) (hp : PoolInv p) :
    PoolInv (applyOp p op) := by
  cases op with
  | reset r =>
    refine ⟨?_, ?_⟩ <;> simp [applyOp, Pool.ResetCommitments]
  | add blk nl mv commit =>
    rcases addExecutorCommitment_cases p blk nl mv commit with h | ⟨h, hm, hnone⟩
    · rw [applyOp, h]; exact hp
    · rw [applyOp, h]
      constructor
      · intro e he
        rcases List.mem_append.1 he with h1 | h1
        · exact hp.1 e h1
        · simp only [List.mem_singleton] at h1
          subst h1
          exact hm
      · simp only [List.map_append, List.map_cons, List.map_nil]
        have hnot := ecLookup_none_not_mem _ _ hnone
        exact hp.2.append (by simp) (by simpa using hnot)
  | process dt =>
    have hk := processCommitments_keeps p dt
    exact PoolInv_congr p _ hk.1 hk.2 hp
  | tryFin h rt dt auth =>
    have hk := tryFinalize_keeps p h rt dt auth
    exact PoolInv_congr p _ hk.1 hk.2 hp

theorem PoolInv_applyOps (ops : List PoolOp) :
    ∀ p : Pool, PoolInv p → PoolInv (applyOps p ops) := by
  induction ops with
  | nil => intro p hp; exact hp
  | cons op ops ih =>
    intro p hp
    exact ih _ (PoolInv_applyOp p op hp)

/-- Claim C7: under the commitment-map invariant, every operation sequence
preserves it (keys are committee members and unique); `AddExecutorCommitment`
never overwrites an entry, rejects non-members with `ErrNotInCommittee` and
duplicate submitters with `ErrAlreadyCommitted`. -/
theorem c7_commitment_invariants (p : Pool) (hp : PoolInv p) :
    (∀ ops : List PoolOp, PoolInv (applyOps p ops)) ∧
    (∀ blk nl mv commit k c0,
      ecLookup p.ExecuteCommitments k = some c0 →
      ecLookup (p.AddExecutorCommitment blk nl commit mv).1.ExecuteCommitments
        k = some c0) ∧
    (∀ blk nl mv (commit : ExecutorCommitment) c rt,
      p.Runtime = some rt → commit.sigOk = true →
      p.Committee = some c → c.kind = CommitteeKind.computeExecutor →
      p.isMember commit.nodeID = false →
      p.AddExecutorCommitment blk nl commit mv = (p, some .notInCommittee)) ∧
    (∀ blk nl mv (commit : ExecutorCommitment) c rt,
      p.Runtime = some rt → commit.sigOk = true →
      p.Committee = some c → c.kind = CommitteeKind.computeExecutor →
      (ecLookup p.ExecuteCommitments commit.nodeID).isSome →
      p.AddExecutorCommitment blk nl commit mv = (p, some .alreadyCommitted)) := by
  refine ⟨fun ops => PoolInv_applyOps ops p hp, ?_, ?_, ?_⟩
  · intro blk nl mv commit k c0 h
    rcases addExecutorCommitment_cases p blk nl mv commit with h1 | ⟨h1, _, _⟩
    · rw [h1]; exact h
    · rw [h1]
      exact ecLookup_append_of_some _ _ _ _ h
  · intro blk nl mv commit c rt hrt hsig hcom hkind hnm
    unfold Pool.AddExecutorCommitment Pool.addVerifiedExecutorCommitment
    rw [hrt, hcom]
    dsimp only
    rw [if_neg (by simp [hsig]), if_neg (by simp [hkind]),
      if_pos (by simp [hnm])]
  · intro blk nl mv commit c rt hrt hsig hcom hkind hdup
    have hmem : p.isMember commit.nodeID = true := by
      rcases Option.isSome_iff_exists.1 hdup with ⟨c0, hc0⟩
      exact hp.1 (commit.nodeID, c0) (ecLookup_mem _ _ _ hc0)
    unfold Pool.AddExecutorCommitment Pool.addVerifiedExecutorCommitment
    rw [hrt, hcom]
    dsimp only
    rw [if_neg (by simp [hsig]), if_neg (by simp [hkind]),
      if_neg (by simp [hmem]), if_pos hdup]

theorem processCommitments_disc_mono (p : Pool) (dt : Bool)
    (hd : p.Discrepancy = true) : (p.ProcessCommitments dt).1.Discrepancy = true := by
  rcases processCommitments_pool_cases p dt with h | ⟨h, _⟩
  · rw [h]; exact hd
  · rw [h]

theorem tryFinalize_disc_mono (p : Pool) (height roundTimeout : Int)
    (dt auth : Bool) (hd : p.Discrepancy = true) :
    (p.TryFinalize height roundTimeout dt auth).1.Discrepancy = true := by
  have hm := processCommitments_disc_mono p dt hd
  unfold Pool.TryFinalize
  rcases hr : p.ProcessCommitments dt with ⟨p1, v⟩
  rw [hr] at hm
  dsimp only at hm
  dsimp only
  repeat' split
  all_goals first | rfl | exact hm

theorem detectionBranch_dd (p : Pool) (s : ScanState)
    (pcommit : Option ExecutorCommitment) (dt : Bool)
    (hv : (detectionBranch p s pcommit dt).2 = .fail .discrepancyDetected) :
    (detectionBranch p s pcommit dt).1.Discrepancy = true := by
  revert hv
  unfold detectionBranch
  dsimp only
  repeat' split
  all_goals intro hv
  all_goals first | rfl | simp at hv

theorem processCommitments_dd_sets_flag (p : Pool) (dt : Bool)
    (hd : p.Discrepancy = false)
    (hv : (p.ProcessCommitments dt).2 = .fail .discrepancyDetected) :
    (p.ProcessCommitments dt).1.Discrepancy = true := by
  revert hv
  unfold Pool.ProcessCommitments Pool.ProcessCommitmentsWith
  cases hc : p.Committee with
  | none => intro hv; simp at hv
  | some c =>
    dsimp only
    by_cases hk : c.kind ≠ CommitteeKind.computeExecutor
    · rw [if_pos hk]; intro hv; simp at hv
    · rw [if_neg hk]
      cases hg : gather p.Discrepancy (ecLookup p.ExecuteCommitments) c.members
          { total := 0, commits := 0, failures := 0, votes := [] } with
      | none => intro _; rfl
      | some s =>
        dsimp only
        cases hts : c.TransactionScheduler p.Round with
        | none => intro hv; simp at hv
        | some prop =>
          dsimp only
          by_cases hpn : ecLookup p.ExecuteCommitments prop.publicKey = none ∧
              dt = true
          · rw [if_pos hpn]; intro hv; simp at hv
          · rw [if_neg hpn]
            rw [hd]
            exact detectionBranch_dd p s _ dt

theorem addExecutorCommitment_disc (p : Pool) (blk : Block)
    (nl : Nat → Option NodeDescriptor) (mv : Option (List Nat → Option Nat))
    (commit : ExecutorCommitment) :
    (p.AddExecutorCommitment blk nl commit mv).1.Discrepancy = p.Discrepancy := by
  rcases addExecutorCommitment_cases p blk nl mv commit with h | ⟨h, _, _⟩ <;>
    rw [h]

theorem gather_backup_congr (lk1 lk2 : Nat → Option ExecutorCommitment)
    (ms : List CommitteeNode)
    (h : ∀ n ∈ ms, n.role = Role.backupWorker →
      lk1 n.publicKey = lk2 n.publicKey) :
    ∀ s : ScanState, gather true lk1 ms s = gather true lk2 ms s := by
  induction ms with
  | nil => intro s; rfl
  | cons n ms ih =>
    intro s
    have hrest : ∀ m ∈ ms, m.role = Role.backupWorker →
        lk1 m.publicKey = lk2 m.publicKey :=
      fun m hm => h m (List.mem_cons_of_mem _ hm)
    by_cases hskip : (true = false ∧ n.role ≠ Role.worker) ∨
        (true = true ∧ n.role ≠ Role.backupWorker)
    · rw [gather_cons_skip true lk1 n ms s hskip,
        gather_cons_skip true lk2 n ms s hskip]
      exact ih hrest s
    · have hrole : n.role = Role.backupWorker := by
        rcases em (n.role = Role.backupWorker) with h1 | h1
        · exact h1
        · exact absurd (Or.inr ⟨rfl, h1⟩) hskip
      have hlk : lk1 n.publicKey = lk2 n.publicKey := h n (by simp) hrole
      cases hlk2 : lk2 n.publicKey with
      | none =>
        rw [gather_cons_nocommit true lk1 n ms s hskip (hlk.trans hlk2),
          gather_cons_nocommit true lk2 n ms s hskip hlk2]
        exact ih hrest _
      | some cm =>
        cases hf : cm.IsIndicatingFailure with
        | true =>
          rw [gather_cons_failure true lk1 n ms s cm hskip (hlk.trans hlk2) hf,
            gather_cons_failure true lk2 n ms s cm hskip hlk2 hf]
          exact ih hrest _
        | false =>
          have hcond : ¬ ((true : Bool) = false ∧
              1 < (addVote s.votes cm).length) := by
            rintro ⟨hcontra, _⟩
            cases hcontra
          rw [gather_cons_vote true lk1 n ms s cm hskip (hlk.trans hlk2) hf hcond,
            gather_cons_vote true lk2 n ms s cm hskip hlk2 hf hcond]
          exact ih hrest _

/-- Claim C8: the discrepancy flag is monotonic within a round — no pool
operation other than `ResetCommitments` ever clears it; `ResetCommitments`
clears it along with the commitments and the timeout; a detection-mode
`ErrDiscrepancyDetected` verdict always leaves the flag set; and in
resolution mode the scan reads only backup-worker commitments, never worker
commitments. -/
theorem c8_discrepancy_monotonic (p : Pool) :
    (∀ op : PoolOp, (∀ r, op ≠ PoolOp.reset r) → p.Discrepancy = true →
      (applyOp p op).Discrepancy = true) ∧
    (∀ r, (p.ResetCommitments r).Discrepancy = false ∧
      (p.ResetCommitments r).ExecuteCommitments = [] ∧
      (p.ResetCommitments r).NextTimeout = TimeoutNever) ∧
    (∀ dt, p.Discrepancy = false →
      (p.ProcessCommitments dt).2 = .fail .discrepancyDetected →
      (p.ProcessCommitments dt).1.Discrepancy = true) ∧
    (∀ (lk1 lk2 : Nat → Option ExecutorCommitment) (ms : List CommitteeNode)
      (s : ScanState),
      (∀ n ∈ ms, n.role = Role.backupWorker →
        lk1 n.publicKey = lk2 n.publicKey) →
      gather true lk1 ms s = gather true lk2 ms s) := by
  refine ⟨?_, fun r => ⟨rfl, rfl, rfl⟩, ?_, ?_⟩
  · intro op hne hd
    cases op with
    | reset r => exact absurd rfl (hne r)
    | add blk nl mv commit =>
      rw [applyOp, addExecutorCommitment_disc]
      exact hd
    | process dt => exact processCommitments_disc_mono p dt hd
    | tryFin h rt dt auth => exact tryFinalize_disc_mono p h rt dt auth hd
  · intro dt hd hv
    exact processCommitments_dd_sets_flag p dt hd hv
  · intro lk1 lk2 ms s hagree
    exact gather_backup_congr lk1 lk2 ms hagree s

/-- Claim C9: `CheckProposerTimeout` checks its preconditions in order —
missing committee, wrong committee kind, wrong round, any existing
commitment, non-worker requester, scheduler requester — and succeeds exactly
when all preconditions hold. -/
theorem c9_checkProposerTimeout (p : Pool) (blk : Block) (id round : Nat) :
    (p.Committee = none →
      p.CheckProposerTimeout blk id round = some .noCommittee) ∧
    (∀ c, p.Committee = some c → c.kind ≠ CommitteeKind.computeExecutor →
      p.CheckProposerTimeout blk id round = some .invalidCommitteeKind) ∧
    (∀ c, p.Committee = some c → c.kind = CommitteeKind.computeExecutor →
      round ≠ blk.round →
      p.CheckProposerTimeout blk id round = some .timeoutNotCorrectRound) ∧
    (∀ c, p.Committee = some c → c.kind = CommitteeKind.computeExecutor →
      round = blk.round → p.ExecuteCommitments ≠ [] →
      p.CheckProposerTimeout blk id round = some .alreadyCommitted) ∧
    (∀ c, p.Committee = some c → c.kind = CommitteeKind.computeExecutor →
      round = blk.round → p.ExecuteCommitments = [] → p.isWorker id = false →
      p.CheckProposerTimeout blk id round = some .notInCommittee) ∧
    (∀ c, p.Committee = some c → c.kind = CommitteeKind.computeExecutor →
      round = blk.round → p.ExecuteCommitments = [] → p.isWorker id = true →
      p.isScheduler id = true →
      p.CheckProposerTimeout blk id round = some .nodeIsScheduler) ∧
    (p.CheckProposerTimeout blk id round = none ↔
      ∃ c, p.Committee = some c ∧ c.kind = CommitteeKind.computeExecutor ∧
        round = blk.round ∧ p.ExecuteCommitments = [] ∧
        p.isWorker id = true ∧ p.isScheduler id = false) := by
  refine ⟨?_, ?_, ?_, ?_, ?_, ?_, ?_⟩
  · intro hc
    simp [Pool.CheckProposerTimeout, hc]
  · intro c hc hk
    simp [Pool.CheckProposerTimeout, hc, hk]
  · intro c hc hk hr
    simp [Pool.CheckProposerTimeout, hc, hk, hr]
  · intro c hc hk hr hec
    simp [Pool.CheckProposerTimeout, hc, hk, hr,
      List.length_eq_zero.not.2 hec]
  · intro c hc hk hr hec hw
    simp [Pool.CheckProposerTimeout, hc, hk, hr, hec, hw]
  · intro c hc hk hr hec hw hs
    simp [Pool.CheckProposerTimeout, hc, hk, hr, hec, hw, hs]
  · constructor
    · intro h
      cases hc : p.Committee with
      | none => simp [Pool.CheckProposerTimeout, hc] at h
      | some c =>
        by_cases hk : c.kind ≠ CommitteeKind.computeExecutor
        · simp [Pool.CheckProposerTimeout, hc, hk] at h
        · by_cases hr : round ≠ blk.round
          · simp [Pool.CheckProposerTimeout, hc, hk, hr] at h
          · by_cases hec : p.ExecuteCommitments = []
            · by_cases hw : p.isWorker id = true
              · by_cases hs : p.isScheduler id = true
                · simp [Pool.CheckProposerTimeout, hc, hk, hr, hec, hw, hs] at h
                · exact ⟨c, rfl, not_not.1 hk, not_not.1 hr, hec, hw,
                    Bool.not_eq_true _ ▸ hs⟩
              · simp [Pool.CheckProposerTimeout, hc, hk, hr, hec,
                  Bool.not_eq_true _ ▸ hw] at h
            · simp [Pool.CheckProposerTimeout, hc, hk, hr,
                List.length_eq_zero.not.2 hec] at h
    · rintro ⟨c, hc, hk, hr, hec, hw, hs⟩
      simp [Pool.CheckProposerTimeout, hc, hk, hr, hec, hw, hs]

/-- Witness for claim C9, the spec's boundary scenario: worker 2 may request
a proposer timeout on an empty pool, the proposer (worker 1) may not, a
backup worker may not, and any commitment blocks the request. -/
theorem c9_witness :
    exPool.CheckProposerTimeout ⟨0, 55⟩ 2 0 = none ∧
    exPool.CheckProposerTimeout ⟨0, 55⟩ 1 0 = some .nodeIsScheduler ∧
    exPool.CheckProposerTimeout ⟨0, 55⟩ 4 0 = some .notInCommittee ∧
    c2pool.CheckProposerTimeout ⟨0, 55⟩ 2 0 = some .alreadyCommitted := by
  have h1 := c9_checkProposerTimeout exPool ⟨0, 55⟩ 2 0
  have h2 := c9_checkProposerTimeout exPool ⟨0, 55⟩ 1 0
  have h3 := c9_checkProposerTimeout exPool ⟨0, 55⟩ 4 0
  have h4 := c9_checkProposerTimeout c2pool ⟨0, 55⟩ 2 0
  refine ⟨?_, ?_, ?_, ?_⟩
  · exact h1.2.2.2.2.2.2.2 ⟨exCommittee, rfl, rfl, rfl, rfl, by decide, by decide⟩
  · exact h2.2.2.2.2.2.1 exCommittee rfl rfl rfl rfl (by decide) (by decide)
  · exact h3.2.2.2.2.1 exCommittee rfl rfl rfl rfl (by decide)
  · exact h4.2.2.2.1 exCommittee rfl rfl rfl (by decide)

/-- Witness for claim C8: a resolution-mode pool keeps its flag across a
tally, and a reset clears flag and commitments. -/
theorem c8_witness :
    (applyOp c6poolA (PoolOp.process false)).Discrepancy = true ∧
    (c6poolA.ResetCommitments 7).Discrepancy = false ∧
    (c6poolA.ResetCommitments 7).ExecuteCommitments = [] := by
  have h := c8_discrepancy_monotonic c6poolA
  exact ⟨h.1 (PoolOp.process false) (fun r hr => (nomatch hr)) rfl,
    (h.2.1 7).1, (h.2.1 7).2.1⟩

/-- Claim C10: a failure-indicating commitment that passes the structural
admission checks is accepted for every node-lookup and message-validator
adapter — neither adapter is consulted, no TEE attestation is verified even
when the runtime requires trusted execution, and the messages rule is not
applied even to a non-proposer carrying messages. -/
theorem c10_failure_commit_skips_adapters (p : Pool) (blk : Block)
    (commit : ExecutorCommitment) (c : Committee) (rt : RuntimeDescriptor)
    (hfail : commit.IsIndicatingFailure = true)
    (hrt : p.Runtime = some rt)
    (hsig : commit.sigOk = true)
    (hc : p.Committee = some c)
    (hk : c.kind = CommitteeKind.computeExecutor)
    (hm : p.isMember commit.nodeID = true)
    (hdup : ecLookup p.ExecuteCommitments commit.nodeID = none)
    (hround : p.Round = blk.round)
    (hparent : commit.parentHash = blk.encodedHash)
    (hbasic : commit.basicOk = true) :
    ∀ (nl : Nat → Option NodeDescriptor) (mv : Option (List Nat → Option Nat)),
      p.AddExecutorCommitment blk nl commit mv =
        ({ p with ExecuteCommitments :=
            p.ExecuteCommitments ++ [(commit.nodeID, commit)] }, none) := by
  intro nl mv
  unfold Pool.AddExecutorCommitment Pool.addVerifiedExecutorCommitment
  rw [hrt, hc]
  dsimp only
  rw [if_neg (by simp [hsig]), if_neg (by simp [hk]), if_neg (by simp [hm]),
    if_neg (by simp [hdup]), if_neg (by simp [hround]),
    if_neg (by simp [hparent]), if_neg (by simp [hbasic]), hfail]

/-- Runtime requiring trusted execution, for the C10 witness. -/
def c10rt : RuntimeDescriptor :=
  { ID := 100, TEEHardware := 1, Executor := ⟨1, 4⟩, Deployments := [] }

/-- A failure-indicating commitment by non-proposer node 2 that carries
messages (with a wrong messages hash) and no usable attestation. -/
def c10commit : ExecutorCommitment :=
  { nodeID := 2, failure := true, vote := 99, messages := [5, 6]
    messagesHash := 0, parentHash := 55, sigOk := true, basicOk := true
    rakKey := 0 }

/-- Pool whose runtime requires trusted execution, for the C10 witness. -/
def c10pool : Pool :=
  { exPool with Runtime := some c10rt }

/-- Witness for claim C10: the failure commitment is accepted although the
node lookup would fail, the validator would reject, the node is not the
proposer, its messages are non-empty with a wrong hash, and the runtime
requires trusted execution. -/
theorem c10_witness :
    c10pool.AddExecutorCommitment ⟨0, 55⟩ (fun _ => none) c10commit
        (some (fun _ => some 77)) =
      ({ c10pool with ExecuteCommitments :=
          c10pool.ExecuteCommitments ++ [(2, c10commit)] }, none) := by
  exact c10_failure_commit_skips_adapters c10pool ⟨0, 55⟩ c10commit exCommittee
    c10rt rfl rfl rfl rfl rfl (by decide) rfl rfl rfl rfl
    (fun _ => none) (some (fun _ => some 77))

/-- Witness for claim C7: a commitment from node 9, which is not in the
committee, is rejected with `ErrNotInCommittee` and the pool is unchanged. -/
theorem c7_witness :
    exPool.AddExecutorCommitment ⟨0, 55⟩ (fun _ => none) (exCommit 9 10) none =
      (exPool, some Err.notInCommittee) := by
  exact (c7_commitment_invariants exPool
      (by unfold PoolInv; exact ⟨by simp [exPool], by simp [exPool]⟩)).2.2.1
    ⟨0, 55⟩ (fun _ => none) none (exCommit 9 10) exCommittee exRuntime
    rfl rfl rfl rfl (by decide)
